import Mathlib

/-!
Shallow embedding of `ss::HashTable` from `src/HashTable.h`.

Modelling choices:
* Keys and values are both `Nat` (the template is instantiated as
  `HashTable<int,int>` everywhere in the repository); the pluggable hash
  functor `_hash_func` is an explicit parameter `hash : Nat → Nat` of every
  operation, mirroring the `HashFunc` template parameter.
* `std::deque<value_type>` chains become `List (Nat × Nat)`, the
  `std::vector<chain_t>` bucket array becomes `List (List (Nat × Nat))`, and
  the `boost::dynamic_bitset<>` occupancy set becomes `List Bool`.
* `size_t` arithmetic is `Nat` (no quantity here ever approaches `2^64`).
* The float load-factor test in `_insert_in_container` is
  `(float)(_size+1)/(float)buckets >= _max_load_factor` with the default
  `_max_load_factor = 1.0f` (nothing in the repository ever calls the
  `max_load_factor` setter, which does not even compile, as it reads an
  undeclared variable `n`).  For positive integers the comparison
  `(s+1)/b >= 1.0` is exactly `s+1 ≥ b`, which is how it is modelled.
* The mutual recursion `rehash → insert → _insert_in_container → rehash`
  of the source terminates only because each nested `rehash` re-inserts the
  entries of a strictly smaller table; the embedding makes every recursive
  call consume one unit of `fuel` and returns `none` on fuel exhaustion.
  All theorems either hold for every fuel value or take the hypothesis that
  the computation returned `some`.
* Out-of-range `std::vector`/`std::deque` indexing (undefined behaviour in
  C++) is modelled by `List.getD _ []`, i.e. an out-of-range bucket index
  reads as an empty chain.
-/

/-- The state of `ss::HashTable<int,int>`: fields `_size`, `_bucket_count`,
`_first_nonempty_bucket`, `_last_nonempty_bucket`, `_buckets` and
`_non_empty_buckets` of `src/HashTable.h` (the two float fields
`_load_factor`/`_max_load_factor` are write-only diagnostics at the default
configuration and are omitted; see the header comment). -/
structure Table where
  size : Nat
  bc : Nat
  first : Nat
  last : Nat
  buckets : List (List (Nat × Nat))
  bits : List Bool
  deriving DecidableEq, Repr

/-- `HashTable::_init(bucket_count)` (src/HashTable.h:460-471). -/
def Table.init (n : Nat) : Table :=
  { size := 0
    bc := n - 1
    first := n
    last := 0
    buckets := List.replicate n []
    bits := List.replicate n false }

/-- Chain stored in bucket `b` (`_buckets[bucket_idx]`). -/
def chainAt (t : Table) (b : Nat) : List (Nat × Nat) :=
  t.buckets.getD b []

/-- All stored entries, in bucket order (used by `rehash` and as the
observable contents of the table). -/
def entriesL (t : Table) : List (Nat × Nat) :=
  t.buckets.flatten

/-- All stored keys. -/
def keysL (t : Table) : List Nat :=
  (entriesL t).map Prod.fst

/-- `HashTable::bucket_private` (src/HashTable.h:290-295):
`_hash_func(k) % _bucket_count`. -/
def bucketPrivate (hash : Nat → Nat) (t : Table) (k : Nat) : Nat :=
  hash k % t.bc

/-- `std::find_if` + `std::distance` over a chain as used by
`HashTable::_find`: index of the first entry whose key equals `k`. -/
def findInChain (k : Nat) : List (Nat × Nat) → Option Nat
  | [] => none
  | p :: rest => if k = p.1 then some 0 else (findInChain k rest).map (· + 1)

/-- `HashTable::_find` (src/HashTable.h:202-222): returns
(found, bucket index, chain index), with chain index 0 when not found. -/
def findTuple (hash : Nat → Nat) (t : Table) (k : Nat) : Bool × Nat × Nat :=
  let b := bucketPrivate hash t k
  match findInChain k (chainAt t b) with
  | some i => (true, b, i)
  | none => (false, b, 0)

/-- `HashTable::end` (src/HashTable.h:423-426): iterator at
`(_buckets.size() - 1, 0)`. -/
def endPos (t : Table) : Nat × Nat :=
  (t.buckets.length - 1, 0)

/-- `HashTable::begin` (src/HashTable.h:415-421). -/
def beginPos (t : Table) : Nat × Nat :=
  if t.size = 0 then endPos t else (t.first, 0)

/-- `HashTable::find` (src/HashTable.h:442-449): position of the match, or
the end iterator.  `_find` is `const`, so the table is untouched; the model
returns only the position. -/
def findIt (hash : Nat → Nat) (t : Table) (k : Nat) : Nat × Nat :=
  match findTuple hash t k with
  | (true, b, i) => (b, i)
  | (false, _, _) => endPos t

/-- Entry stored at an iterator position (dereference `operator*`). -/
def entryAt (t : Table) (p : Nat × Nat) : Option (Nat × Nat) :=
  (chainAt t p.1)[p.2]?

/-- `boost::dynamic_bitset<>::find_first`: lowest set bit, `none` for npos. -/
def findFirstBit : List Bool → Option Nat
  | [] => none
  | true :: _ => some 0
  | false :: rest => (findFirstBit rest).map (· + 1)

/-- `boost::dynamic_bitset<>::find_next(pos)`: lowest set bit strictly
greater than `pos`, `none` for npos. -/
def findNextBit : List Bool → Nat → Option Nat
  | [], _ => none
  | _ :: rest, 0 => (findFirstBit rest).map (· + 1)
  | _ :: rest, p + 1 => (findNextBit rest p).map (· + 1)

/-- Backward scan of `HashTable::erase(const_iterator)`
(src/HashTable.h:565-583): greatest bucket index `j < b` whose chain is
non-empty. -/
def findPrevNonempty (buckets : List (List (Nat × Nat))) : Nat → Option Nat
  | 0 => none
  | j + 1 => if buckets.getD j [] ≠ [] then some j else findPrevNonempty buckets j

/-- `_ht_iterator::operator++` (src/HashTable.h:335-359): the value of the
iterator after the increment (the mutation of `*this`; all call sites in the
repository discard the returned reference or, via `std::next`, read the
mutated copy). -/
def advancePos (t : Table) (p : Nat × Nat) : Nat × Nat :=
  let chain := chainAt t p.1
  if 0 < chain.length ∧ p.2 + 1 < chain.length then (p.1, p.2 + 1)
  else
    match findNextBit t.bits p.1 with
    | some nb => (nb, 0)
    | none => if p.2 < chain.length then (p.1, p.2 + 1) else p

/-- The doubling loop of `HashTable::_insert_in_container`
(src/HashTable.h:227-235): starting from `b = _buckets.size()`, double while
`_size + 1 ≥ b`; returns the final bucket count and the `rehashed` flag.
For `b = 0` the source divides by zero and loops forever; that branch is
unreachable from any constructed table and is modelled as returning `(0,
true)`. -/
def growLoopGo : Nat → Nat → Nat → Nat × Bool
  | 0, _, b => (b, true)
  | g + 1, s, b =>
    if b = 0 then (0, true)
    else if s + 1 ≥ b then ((growLoopGo g s (2 * b)).1, true)
    else (b, false)

/-- Entry point of the doubling loop.  The gas `s + 2` covers every possible
iteration count: starting from any `b ≥ 1` the doubled count exceeds
`s + 1` within at most `s + 1` steps, so `growLoopGo` never exhausts its gas
on a reachable input and agrees with the source loop. -/
def growLoop (s : Nat) (b : Nat) : Nat × Bool :=
  growLoopGo (s + 2) s b

mutual

/-- `HashTable::rehash` (src/HashTable.h:180-198): no-op unless
`n > _bucket_count`; otherwise moves the chains out, re-runs `_init(n)` and
re-inserts every entry via `insert`. -/
def rehashF (hash : Nat → Nat) : Nat → Table → Nat → Option Table
  | 0, _, _ => none
  | f + 1, t, n =>
    if n ≤ t.bc then some t
    else insertListF hash f (Table.init n) t.buckets.flatten
termination_by structural f _ _ => f

/-- The re-insertion loop of `HashTable::rehash` (bucket order, chain
order). -/
def insertListF (hash : Nat → Nat) : Nat → Table → List (Nat × Nat) → Option Table
  | 0, _, _ => none
  | _ + 1, t, [] => some t
  | f + 1, t, kv :: rest =>
    match insertF hash f t kv with
    | none => none
    | some (t1, _, _) => insertListF hash f t1 rest
termination_by structural f _ _ => f

/-- `HashTable::_insert` (src/HashTable.h:473-485): duplicate keys return
`(end(), false)` with the table untouched; otherwise the entry is placed by
`_insert_in_container` and the returned iterator is built from the bucket
index computed by `_find` *before* any rehash, together with the chain index
reported by `_insert_in_container`. -/
def insertF (hash : Nat → Nat) : Nat → Table → Nat × Nat →
    Option (Table × (Nat × Nat) × Bool)
  | 0, _, _ => none
  | f + 1, t, kv =>
    match findTuple hash t kv.1 with
    | (true, _, _) => some (t, endPos t, false)
    | (false, b, _) =>
      match insertInContainerF hash f t b kv with
      | none => none
      | some (t1, _, ci) => some (t1, (b, ci), true)
termination_by structural f _ _ => f

/-- `HashTable::_insert_in_container` (src/HashTable.h:224-262): consult the
growth loop, call `rehash` (unconditionally, with the possibly doubled
count), recompute the bucket index only when the loop ran, update the
occupancy bit and the first/last bounds when the chain was empty, append the
entry and report the chain index `bucket.size() - 1`.  Returns the table,
the bucket index actually used (the slot the returned reference points
into), and that chain index. -/
def insertInContainerF (hash : Nat → Nat) : Nat → Table → Nat → Nat × Nat →
    Option (Table × Nat × Nat)
  | 0, _, _, _ => none
  | f + 1, t, b, kv =>
    let g := growLoop t.size t.buckets.length
    match rehashF hash f t g.1 with
    | none => none
    | some t1 =>
      let b' := if g.2 then bucketPrivate hash t1 kv.1 else b
      let ch := chainAt t1 b'
      let t2 : Table :=
        { size := t1.size + 1
          bc := t1.bc
          first := if ch = [] ∧ b' < t1.first then b' else t1.first
          last := if ch = [] ∧ b' > t1.last then b' else t1.last
          buckets := t1.buckets.set b' (ch ++ [kv])
          bits := if ch = [] then t1.bits.set b' true else t1.bits }
      some (t2, b', ch.length)
termination_by structural f _ _ _ => f

end

/-- `HashTable::count` (src/HashTable.h:151-158): 0 when the key's bucket is
empty, otherwise 1 (the key itself is never compared). -/
def countK (hash : Nat → Nat) (t : Table) (k : Nat) : Nat :=
  if chainAt t (bucketPrivate hash t k) = [] then 0 else 1

/-- `HashTable::at` = `_at(k, THROW_EXCEPTION)` (src/HashTable.h:121-129,
264-288): the table component is returned unchanged on every path (`_at`
only mutates under the insert policy); `Except.error` models the thrown
`std::out_of_range` (the spec's `KeyNotFound`). -/
def atM (hash : Nat → Nat) (t : Table) (k : Nat) : Table × Except Unit Nat :=
  match findTuple hash t k with
  | (true, b, i) => (t, Except.ok ((chainAt t b).getD i (0, 0)).2)
  | (false, _, _) => (t, Except.error ())

/-- `HashTable::operator[]` = `_at(k, INSERT_KEY_VALUE)`
(src/HashTable.h:111-119, 264-288): on a hit, the existing slot; on a miss,
`_insert_in_container` is called with the bucket index computed by `_find`
and a default-constructed value (`int{}` = 0).  Returns the table and the
(bucket, chain) position of the value the returned reference denotes. -/
def opIndexF (hash : Nat → Nat) (f : Nat) (t : Table) (k : Nat) :
    Option (Table × Nat × Nat) :=
  match findTuple hash t k with
  | (true, b, i) => some (t, b, i)
  | (false, b, _) =>
    match insertInContainerF hash f t b (k, 0) with
    | none => none
    | some (t1, b', ci) => some (t1, b', ci)

/-- Write through the reference returned by `operator[]`: `ht[k] = v`. -/
def setValAt (t : Table) (b i : Nat) (v : Nat) : Table :=
  let ch := chainAt t b
  { t with buckets := t.buckets.set b (ch.set i ((ch.getD i (0, 0)).1, v)) }

/-- The upsert `ht[k] = v`: locate or insert the slot, then store `v`. -/
def opIndexAssignF (hash : Nat → Nat) (f : Nat) (t : Table) (k v : Nat) :
    Option Table :=
  match opIndexF hash f t k with
  | none => none
  | some (t1, b, i) => some (setValAt t1 b i v)

/-- `HashTable::erase(const_iterator)` (src/HashTable.h:529-590), returning
the new table and the returned iterator. -/
def eraseIt (t : Table) (p : Nat × Nat) : Table × (Nat × Nat) :=
  if t.buckets.length ≤ p.1 then (t, endPos t)
  else
    let chain := chainAt t p.1
    if chain.length ≤ p.2 then (t, endPos t)
    else
      let chain' := chain.eraseIdx p.2
      let t1 : Table :=
        { t with buckets := t.buckets.set p.1 chain', size := t.size - 1 }
      if chain' = [] then
        let t2 : Table := { t1 with bits := t1.bits.set p.1 false }
        if t.first = p.1 then
          match findFirstBit t2.bits with
          | some nf => ({ t2 with first := nf }, (nf, 0))
          | none => (t2, endPos t2)
        else if t.last = 0 then (t2, endPos t2)
        else if t.last = p.1 then
          match findPrevNonempty t2.buckets p.1 with
          | some j => ({ t2 with last := j }, (j, 0))
          | none => (t2, endPos t2)
        else (t2, advancePos t2 p)
      else
        if p.2 = chain'.length then (t1, advancePos t1 p)
        else (t1, (p.1, p.2))

/-- `HashTable::erase(const_iterator, const_iterator)`
(src/HashTable.h:603-613): `while (it != last) { erase(it); ++it; }`, where
`++it` reads the table as mutated by the erase.  Fueled because the source
loop need not terminate. -/
def rangeEraseF : Nat → Table → Nat × Nat → Nat × Nat → Option (Table × (Nat × Nat))
  | 0, _, _, _ => none
  | f + 1, t, it, last =>
    if it = last then some (t, it)
    else
      let r := eraseIt t it
      rangeEraseF f r.1 (advancePos r.1 it) last

/-- Structural well-formedness: the documented data-model invariants of
spec §3 that `find`/`insert`/`rehash` maintain — bucket array length is
`_bucket_count + 1`, the occupancy set mirrors chain emptiness, every entry
sits in the bucket its key hashes to, keys are unique, and `_size` counts
the entries. -/
def WFcore (hash : Nat → Nat) (t : Table) : Prop :=
  t.buckets.length = t.bc + 1
  ∧ 1 ≤ t.bc
  ∧ t.bits = t.buckets.map (fun c => decide (c ≠ []))
  ∧ (∀ b < t.buckets.length, ∀ p ∈ chainAt t b, hash p.1 % t.bc = b)
  ∧ (keysL t).Nodup
  ∧ t.size = (entriesL t).length

instance (hash : Nat → Nat) (t : Table) : Decidable (WFcore hash t) := by
  unfold WFcore; infer_instance

/-- Exactness of the `_first_nonempty_bucket`/`_last_nonempty_bucket`
bookkeeping: every non-empty bucket lies between the two bounds, and when
the table is non-empty both bounds point at non-empty buckets. -/
def WFbounds (t : Table) : Prop :=
  (∀ i < t.buckets.length, chainAt t i ≠ [] → t.first ≤ i ∧ i ≤ t.last)
  ∧ (0 < t.size → chainAt t t.first ≠ [] ∧ chainAt t t.last ≠ [])

instance (t : Table) : Decidable (WFbounds t) := by
  unfold WFbounds; infer_instance

/-! ### List-level helper lemmas -/

theorem getD_set_self {α : Type} (l : List α) (i : Nat) (x d : α) (h : i < l.length) :
    (l.set i x).getD i d = x := by
  induction l generalizing i with
  | nil => simp at h
  | cons a rest ih =>
    cases i with
    | zero => rfl
    | succ j => exact ih j (by simpa using h)

theorem getD_set_ne {α : Type} (l : List α) (i j : Nat) (x d : α) (h : i ≠ j) :
    (l.set i x).getD j d = l.getD j d := by
  induction l generalizing i j with
  | nil => simp
  | cons a rest ih =>
    cases i with
    | zero => cases j with
      | zero => exact absurd rfl h
      | succ j2 => rfl
    | succ i2 => cases j with
      | zero => rfl
      | succ j2 => exact ih i2 j2 (by omega)

theorem set_getD_self {α : Type} (l : List α) (i : Nat) (d : α) (h : i < l.length) :
    l.set i (l.getD i d) = l := by
  induction l generalizing i with
  | nil => simp at h
  | cons a rest ih =>
    cases i with
    | zero => rfl
    | succ j => simpa using ih j (by simpa using h)

theorem flatten_set_append_perm {α : Type} (L : List (List α)) (i : Nat) (x : α)
    (h : i < L.length) :
    ((L.set i (L.getD i [] ++ [x])).flatten).Perm (L.flatten ++ [x]) := by
  induction L generalizing i with
  | nil => simp at h
  | cons c rest ih =>
    cases i with
    | zero =>
      simp only [List.getD_cons_zero, List.set_cons_zero, List.flatten_cons,
        List.append_assoc]
      exact (List.perm_append_comm).append_left c
    | succ j =>
      simp only [List.getD_cons_succ, List.set_cons_succ, List.flatten_cons,
        List.append_assoc]
      exact (ih j (by simpa using h)).append_left c

theorem getD_mem_of_lt {α : Type} (L : List (List α)) (b : Nat) (h : b < L.length) :
    L.getD b [] ∈ L := by
  rw [List.getD_eq_getElem?_getD, List.getElem?_eq_getElem h]
  exact List.getElem_mem h

/-! ### Membership in the entry list -/

theorem mem_entriesL {t : Table} {p : Nat × Nat} :
    p ∈ entriesL t ↔ ∃ b, b < t.buckets.length ∧ p ∈ chainAt t b := by
  unfold entriesL chainAt
  rw [List.mem_flatten]
  constructor
  · rintro ⟨s, hs, hp⟩
    obtain ⟨b, hb, hsb⟩ := List.mem_iff_getElem.mp hs
    refine ⟨b, hb, ?_⟩
    rw [List.getD_eq_getElem?_getD, List.getElem?_eq_getElem hb, Option.getD_some, hsb]
    exact hp
  · rintro ⟨b, hb, hp⟩
    refine ⟨t.buckets.getD b [], getD_mem_of_lt _ b hb, hp⟩

theorem chainAt_sublist (t : Table) (b : Nat) : (chainAt t b).Sublist (entriesL t) := by
  unfold chainAt entriesL
  by_cases hb : b < t.buckets.length
  · exact List.sublist_flatten_of_mem (getD_mem_of_lt _ b hb)
  · rw [List.getD_eq_default _ _ (by omega)]
    exact List.nil_sublist _

theorem mem_keysL {t : Table} {k : Nat} :
    k ∈ keysL t ↔ ∃ v, (k, v) ∈ entriesL t := by
  unfold keysL
  rw [List.mem_map]
  constructor
  · rintro ⟨p, hp, rfl⟩; exact ⟨p.2, hp⟩
  · rintro ⟨v, hv⟩; exact ⟨(k, v), hv, rfl⟩

theorem chain_keys_nodup {hash : Nat → Nat} {t : Table} (hwf : WFcore hash t) (b : Nat) :
    ((chainAt t b).map Prod.fst).Nodup :=
  hwf.2.2.2.2.1.sublist ((chainAt_sublist t b).map Prod.fst)

/-! ### `findInChain` specification -/

theorem findInChain_none_iff {k : Nat} {ch : List (Nat × Nat)} :
    findInChain k ch = none ↔ ∀ p ∈ ch, p.1 ≠ k := by
  induction ch with
  | nil => simp [findInChain]
  | cons p rest ih =>
    by_cases hk : k = p.1
    · simp [findInChain, hk]
    · rw [show findInChain k (p :: rest) = (findInChain k rest).map (· + 1) from
        by simp [findInChain, if_neg hk]]
      rw [Option.map_eq_none', ih]
      constructor
      · intro h q hq
        rcases List.mem_cons.mp hq with rfl | hq2
        · exact fun hq1 => hk hq1.symm
        · exact h q hq2
      · intro h q hq
        exact h q (List.mem_cons_of_mem _ hq)

theorem findInChain_some {k : Nat} {ch : List (Nat × Nat)} {i : Nat}
    (h : findInChain k ch = some i) : ∃ v, ch[i]? = some (k, v) := by
  induction ch generalizing i with
  | nil => simp [findInChain] at h
  | cons p rest ih =>
    by_cases hk : k = p.1
    · simp only [findInChain, if_pos hk] at h
      obtain rfl : i = 0 := by simpa using h.symm
      refine ⟨p.2, ?_⟩
      simp only [List.getElem?_cons_zero]
      rw [hk, Prod.mk.eta]
    · rw [show findInChain k (p :: rest) = (findInChain k rest).map (· + 1) from
        by simp [findInChain, if_neg hk]] at h
      rcases hrest : findInChain k rest with _ | j
      · rw [hrest] at h; exact absurd h (by simp [Option.map])
      · rw [hrest] at h
        simp only [Option.map] at h
        obtain rfl : i = j + 1 := by
          have := h
          injection this with h2
          omega
        obtain ⟨v, hv⟩ := ih hrest
        exact ⟨v, by simpa using hv⟩

theorem findInChain_isSome_of_mem {k v : Nat} {ch : List (Nat × Nat)}
    (h : (k, v) ∈ ch) : ∃ i, findInChain k ch = some i := by
  induction ch with
  | nil => simp at h
  | cons p rest ih =>
    by_cases hk : k = p.1
    · exact ⟨0, by simp [findInChain, hk]⟩
    · rcases List.mem_cons.mp h with rfl | h2
      · exact absurd rfl hk
      · obtain ⟨i, hi⟩ := ih h2
        exact ⟨i + 1, by simp [findInChain, if_neg hk, hi]⟩

/-! ### `_find` correctness over well-formed tables -/

theorem key_unique {hash : Nat → Nat} {t : Table} (hwf : WFcore hash t)
    {k v w : Nat} (hv : (k, v) ∈ entriesL t) (hw : (k, w) ∈ entriesL t) : v = w := by
  have hnd : (keysL t).Nodup := hwf.2.2.2.2.1
  unfold keysL at hnd
  have := List.inj_on_of_nodup_map hnd
  have heq := this hv hw rfl
  exact congrArg Prod.snd heq

theorem mem_chain_of_mem_entries {hash : Nat → Nat} {t : Table} (hwf : WFcore hash t)
    {p : Nat × Nat} (hp : p ∈ entriesL t) : p ∈ chainAt t (hash p.1 % t.bc) := by
  obtain ⟨b, hb, hpb⟩ := mem_entriesL.mp hp
  have := hwf.2.2.2.1 b hb p hpb
  rwa [this]

theorem findTuple_mem {hash : Nat → Nat} {t : Table} (hwf : WFcore hash t)
    {k v : Nat} (hm : (k, v) ∈ entriesL t) :
    ∃ i, findTuple hash t k = (true, hash k % t.bc, i)
      ∧ (chainAt t (hash k % t.bc))[i]? = some (k, v) := by
  have hchain : (k, v) ∈ chainAt t (hash k % t.bc) := mem_chain_of_mem_entries hwf hm
  obtain ⟨i, hi⟩ := findInChain_isSome_of_mem hchain
  obtain ⟨w, hw⟩ := findInChain_some hi
  have hmem2 : (k, w) ∈ chainAt t (hash k % t.bc) := by
    have := List.getElem?_mem hw
    exact this
  have hvw : v = w := key_unique hwf hm ((chainAt_sublist t _).mem hmem2)
  refine ⟨i, ?_, by rw [hvw]; exact hw⟩
  unfold findTuple bucketPrivate
  simp only [hi]

theorem findTuple_not_mem {hash : Nat → Nat} {t : Table}
    {k : Nat} (hk : k ∉ keysL t) :
    findTuple hash t k = (false, hash k % t.bc, 0) := by
  have hnone : findInChain k (chainAt t (hash k % t.bc)) = none := by
    rw [findInChain_none_iff]
    intro p hp hpk
    exact hk (by
      unfold keysL
      exact List.mem_map.mpr ⟨p, (chainAt_sublist t _).mem hp, hpk⟩)
  unfold findTuple bucketPrivate
  simp only [hnone]

theorem findIt_mem {hash : Nat → Nat} {t : Table} (hwf : WFcore hash t)
    {k v : Nat} (hm : (k, v) ∈ entriesL t) :
    entryAt t (findIt hash t k) = some (k, v)
      ∧ (findIt hash t k).1 = hash k % t.bc := by
  obtain ⟨i, ht, hget⟩ := findTuple_mem hwf hm
  unfold findIt
  rw [ht]
  exact ⟨hget, rfl⟩

theorem findIt_not_mem {hash : Nat → Nat} {t : Table}
    {k : Nat} (hk : k ∉ keysL t) : findIt hash t k = endPos t := by
  unfold findIt
  rw [findTuple_not_mem hk]

/-! ### Well-formedness of `_init` -/

theorem flatten_replicate_nil {α : Type} (n : Nat) :
    (List.replicate n ([] : List α)).flatten = [] := by
  induction n with
  | zero => rfl
  | succ m ih => simp [List.replicate_succ, ih]

theorem WFcore_init (hash : Nat → Nat) {n : Nat} (hn : 2 ≤ n) :
    WFcore hash (Table.init n) := by
  have hflat : (Table.init n).buckets.flatten = [] := flatten_replicate_nil n
  refine ⟨?_, ?_, ?_, ?_, ?_, ?_⟩
  · show (List.replicate n ([] : List (Nat × Nat))).length = (n - 1) + 1
    rw [List.length_replicate]; omega
  · show 1 ≤ n - 1
    omega
  · show List.replicate n false
      = (List.replicate n ([] : List (Nat × Nat))).map (fun c => decide (c ≠ []))
    simp [List.map_replicate]
  · intro b hb p hp
    exfalso
    have hempty : chainAt (Table.init n) b = [] := by
      show (List.replicate n ([] : List (Nat × Nat))).getD b [] = []
      rcases Nat.lt_or_ge b n with h | h
      · rw [List.getD_eq_getElem?_getD, List.getElem?_replicate, if_pos h]; rfl
      · rw [List.getD_eq_default]; rw [List.length_replicate]; exact h
    rw [hempty] at hp
    exact absurd hp (List.not_mem_nil p)
  · show (((Table.init n).buckets.flatten).map Prod.fst).Nodup
    rw [hflat]; exact List.nodup_nil
  · show 0 = ((Table.init n).buckets.flatten).length
    rw [hflat]; rfl

/-! ### Small facts used by the insert/rehash induction -/

theorem concat_getElem_length {α : Type} (l : List α) (a : α) :
    (l ++ [a])[l.length]? = some a := by
  simp

theorem findTuple_bucket (hash : Nat → Nat) (t : Table) (k : Nat) :
    (findTuple hash t k).2.1 = hash k % t.bc := by
  simp only [findTuple, bucketPrivate]
  rcases hf : findInChain k (chainAt t (hash k % t.bc)) with _ | i <;> rfl

theorem findTuple_true_mem {hash : Nat → Nat} {t : Table} {k : Nat} {b i : Nat}
    (h : findTuple hash t k = (true, b, i)) : k ∈ keysL t := by
  simp only [findTuple, bucketPrivate] at h
  rcases hf : findInChain k (chainAt t (hash k % t.bc)) with _ | j
  · rw [hf] at h; exact absurd h (by simp)
  · rw [hf] at h
    obtain ⟨v, hv⟩ := findInChain_some hf
    have hmem : (k, v) ∈ chainAt t (hash k % t.bc) := List.getElem?_mem hv
    unfold keysL
    exact List.mem_map.mpr ⟨(k, v), (chainAt_sublist t _).mem hmem, rfl⟩

theorem entryAt_concat {t : Table} {b ci : Nat} {ch : List (Nat × Nat)}
    {kv : Nat × Nat} (h : chainAt t b = ch ++ [kv]) (hci : ci = ch.length) :
    entryAt t (b, ci) = some kv := by
  unfold entryAt
  rw [show (b, ci).1 = b from rfl, h, hci]
  exact concat_getElem_length ch kv

theorem growLoop_unfold (s b0 : Nat) :
    growLoop s b0 = if b0 = 0 then (0, true)
      else if s + 1 ≥ b0 then ((growLoopGo (s + 1) s (2 * b0)).1, true)
      else (b0, false) := rfl

theorem growLoop_of_lt {s b0 : Nat} (h0 : b0 ≠ 0) (h : s + 1 < b0) :
    growLoop s b0 = (b0, false) := by
  rw [growLoop_unfold]
  rw [if_neg h0, if_neg (by omega)]

theorem growLoop_false_inv {s b0 : Nat} (h : (growLoop s b0).2 = false) :
    (growLoop s b0).1 = b0 ∧ s + 1 < b0 ∧ b0 ≠ 0 := by
  by_cases h0 : b0 = 0
  · rw [growLoop_unfold, if_pos h0] at h; exact absurd h (by simp)
  · by_cases hge : s + 1 ≥ b0
    · rw [growLoop_unfold, if_neg h0, if_pos hge] at h
      exact absurd h (by simp)
    · rw [growLoop_of_lt h0 (by omega)]
      exact ⟨rfl, by omega, h0⟩

theorem keysL_perm {t1 t2 : Table} (h : (entriesL t1).Perm (entriesL t2)) :
    (keysL t1).Perm (keysL t2) := h.map Prod.fst

/-- Fuel-zero base: every fueled operation is `none`. -/
theorem fuelZero_none (hash : Nat → Nat) (t : Table) (n : Nat)
    (l : List (Nat × Nat)) (kv : Nat × Nat) (b : Nat) :
    rehashF hash 0 t n = none ∧ insertListF hash 0 t l = none
      ∧ insertF hash 0 t kv = none ∧ insertInContainerF hash 0 t b kv = none := by
  refine ⟨rfl, ?_, rfl, rfl⟩
  cases l <;> rfl

/-! ### The joint specification of `rehash`, `insert` and
`_insert_in_container`, proved by induction on fuel -/

/-- Specification of `rehashF` at a given fuel: on success the result is
well-formed, holds a permutation of the original entries, capacity never
shrinks, and a rehash that can absorb all entries without a further growth
step yields exactly `n` buckets. -/
def rehashOk (hash : Nat → Nat) (f : Nat) : Prop :=
  ∀ t n t', WFcore hash t → rehashF hash f t n = some t' →
    WFcore hash t' ∧ (entriesL t').Perm (entriesL t) ∧ t.bc ≤ t'.bc
    ∧ (t.size < n ∧ t.bc < n → t'.bc = n - 1 ∧ t'.buckets.length = n)

/-- Specification of the re-insertion loop. -/
def insertListOk (hash : Nat → Nat) (f : Nat) : Prop :=
  ∀ t l t', WFcore hash t → (keysL t ++ l.map Prod.fst).Nodup →
    insertListF hash f t l = some t' →
    WFcore hash t' ∧ (entriesL t').Perm (entriesL t ++ l) ∧ t.bc ≤ t'.bc
    ∧ (t.size + l.length < t.buckets.length →
        t'.bc = t.bc ∧ t'.buckets.length = t.buckets.length)

/-- Specification of `_insert`: duplicate keys leave the table untouched and
report `(end(), false)`; new keys are appended and reported `true`, and the
returned iterator addresses the new entry whenever the insertion needed no
capacity growth. -/
def insertOk (hash : Nat → Nat) (f : Nat) : Prop :=
  ∀ t kv t' p flag, WFcore hash t → insertF hash f t kv = some (t', p, flag) →
    (kv.1 ∈ keysL t → t' = t ∧ p = endPos t ∧ flag = false)
    ∧ (kv.1 ∉ keysL t →
        flag = true ∧ WFcore hash t' ∧ (entriesL t').Perm (entriesL t ++ [kv])
        ∧ t.bc ≤ t'.bc
        ∧ (t.size + 1 < t.buckets.length →
            t'.bc = t.bc ∧ t'.buckets.length = t.buckets.length
            ∧ entryAt t' p = some kv))

/-- Specification of `_insert_in_container` for a fresh key whose `_find`
bucket is passed in. -/
def iicOk (hash : Nat → Nat) (f : Nat) : Prop :=
  ∀ t b kv t' b' ci, WFcore hash t → kv.1 ∉ keysL t → b = hash kv.1 % t.bc →
    insertInContainerF hash f t b kv = some (t', b', ci) →
    WFcore hash t' ∧ (entriesL t').Perm (entriesL t ++ [kv]) ∧ t.bc ≤ t'.bc
    ∧ b' = hash kv.1 % t'.bc
    ∧ (∃ ch, chainAt t' b' = ch ++ [kv] ∧ ci = ch.length)
    ∧ (t.size + 1 < t.buckets.length →
        t'.bc = t.bc ∧ t'.buckets.length = t.buckets.length ∧ b' = b)

/-- Joint correctness of the mutually recursive operations, by induction on
the fuel. -/
theorem opSpec (hash : Nat → Nat) :
    ∀ f, rehashOk hash f ∧ insertListOk hash f ∧ insertOk hash f ∧ iicOk hash f := by
  intro f
  induction f with
  | zero =>
    refine ⟨?_, ?_, ?_, ?_⟩
    · intro t n t' _ hr
      rw [(fuelZero_none hash t n [] (0, 0) 0).1] at hr; exact absurd hr (by simp)
    · intro t l t' _ _ hr
      rw [(fuelZero_none hash t 0 l (0, 0) 0).2.1] at hr; exact absurd hr (by simp)
    · intro t kv t' p flag _ hr
      rw [(fuelZero_none hash t 0 [] kv 0).2.2.1] at hr; exact absurd hr (by simp)
    · intro t b kv t' b' ci _ _ _ hr
      rw [(fuelZero_none hash t 0 [] kv b).2.2.2] at hr; exact absurd hr (by simp)
  | succ f ih =>
    obtain ⟨ihReh, ihList, ihIns, ihIic⟩ := ih
    have hReh : rehashOk hash (f + 1) := by
      intro t n t' hwf hr
      rw [show rehashF hash (f + 1) t n
          = if n ≤ t.bc then some t else insertListF hash f (Table.init n) t.buckets.flatten
        from rfl] at hr
      by_cases hle : n ≤ t.bc
      · rw [if_pos hle] at hr
        obtain rfl : t = t' := by simpa using hr
        exact ⟨hwf, List.Perm.refl _, Nat.le_refl _, by omega⟩
      · rw [if_neg hle] at hr
        have hn2 : 2 ≤ n := by
          have := hwf.2.1
          omega
        have hwf0 := WFcore_init hash hn2
        have hkeys0 : keysL (Table.init n) = [] := by
          unfold keysL entriesL Table.init
          simp [flatten_replicate_nil]
        have hnd : (keysL (Table.init n) ++ (t.buckets.flatten).map Prod.fst).Nodup := by
          rw [hkeys0, List.nil_append]
          exact hwf.2.2.2.2.1
        obtain ⟨hwf', hperm, hbc, hcond⟩ := ihList _ _ _ hwf0 hnd hr
        have hent0 : entriesL (Table.init n) = [] := by
          unfold entriesL Table.init
          simp [flatten_replicate_nil]
        have hperm2 : (entriesL t').Perm (entriesL t) := by
          rw [hent0] at hperm
          simpa using hperm
        refine ⟨hwf', hperm2, ?_, ?_⟩
        · have : (Table.init n).bc = n - 1 := rfl
          omega
        · intro hc
          have hsz0 : (Table.init n).size = 0 := rfl
          have hlen0 : (Table.init n).buckets.length = n := by
            unfold Table.init; simp
          have hflen : (t.buckets.flatten).length = t.size := hwf.2.2.2.2.2.symm
          have := hcond (by rw [hsz0, hlen0, hflen]; omega)
          rw [show (Table.init n).bc = n - 1 from rfl, hlen0] at this
          exact this
    have hList : insertListOk hash (f + 1) := by
      intro t l t' hwf hnd hr
      cases l with
      | nil =>
        obtain rfl : t = t' := by
          rw [show insertListF hash (f + 1) t [] = some t from rfl] at hr
          simpa using hr
        exact ⟨hwf, by simp, Nat.le_refl _, fun _ => ⟨rfl, rfl⟩⟩
      | cons kv rest =>
        rw [show insertListF hash (f + 1) t (kv :: rest)
            = match insertF hash f t kv with
              | none => none
              | some (t1, _, _) => insertListF hash f t1 rest
          from rfl] at hr
        rcases hins : insertF hash f t kv with _ | ⟨t1, q, fl⟩
        · rw [hins] at hr; exact absurd hr (by simp)
        · rw [hins] at hr
          have hnotin : kv.1 ∉ keysL t := by
            have h1 := (List.nodup_append.mp hnd).2.2
            intro hmem
            exact h1 hmem (List.mem_cons_self kv.1 (rest.map Prod.fst))
          obtain ⟨_, hnew⟩ := ihIns t kv t1 q fl hwf hins
          obtain ⟨hfl, hwf1, hperm1, hbc1, hcond1⟩ := hnew hnotin
          have hknd1 : (keysL t1).Perm (keysL t ++ [kv.1]) := by
            have h0 := hperm1.map Prod.fst
            rw [List.map_append] at h0
            exact h0
          have hnd1 : (keysL t1 ++ rest.map Prod.fst).Nodup := by
            have hp : (keysL t1 ++ rest.map Prod.fst).Perm
                ((keysL t ++ [kv.1]) ++ rest.map Prod.fst) :=
              hknd1.append_right _
            rw [hp.nodup_iff]
            rwa [List.append_assoc, List.singleton_append]
          obtain ⟨hwf', hperm2, hbc2, hcond2⟩ := ihList t1 rest t' hwf1 hnd1 hr
          refine ⟨hwf', ?_, Nat.le_trans hbc1 hbc2, ?_⟩
          · have hassoc : (entriesL t ++ [kv]) ++ rest = entriesL t ++ (kv :: rest) := by
              rw [List.append_assoc, List.singleton_append]
            rw [← hassoc]
            exact hperm2.trans (hperm1.append_right rest)
          · intro hc
            rw [List.length_cons] at hc
            have hstep := hcond1 (by omega)
            have hsz1 : t1.size = t.size + 1 := by
              have e1 : t1.size = (entriesL t1).length := hwf1.2.2.2.2.2
              have e2 : (entriesL t1).length = (entriesL t).length + 1 := by
                rw [hperm1.length_eq]; simp
              have e3 : t.size = (entriesL t).length := hwf.2.2.2.2.2
              omega
            have := hcond2 (by rw [hsz1, hstep.2.1]; omega)
            exact ⟨by rw [this.1, hstep.1], by rw [this.2, hstep.2.1]⟩
    have hIns : insertOk hash (f + 1) := by
      intro t kv t' p flag hwf hr
      rw [show insertF hash (f + 1) t kv
          = match findTuple hash t kv.1 with
            | (true, _, _) => some (t, endPos t, false)
            | (false, b, _) =>
              match insertInContainerF hash f t b kv with
              | none => none
              | some (t1, _, ci) => some (t1, (b, ci), true)
        from rfl] at hr
      rcases hft : findTuple hash t kv.1 with ⟨found, b, i⟩
      cases found with
      | true =>
        have hmem : kv.1 ∈ keysL t := findTuple_true_mem hft
        simp only [hft, Option.some.injEq] at hr
        obtain ⟨rfl, rfl, rfl⟩ : t = t' ∧ endPos t = p ∧ false = flag := by
          exact ⟨congrArg Prod.fst hr, congrArg (Prod.fst ∘ Prod.snd) hr,
            congrArg (Prod.snd ∘ Prod.snd) hr⟩
        exact ⟨fun _ => ⟨rfl, rfl, rfl⟩, fun hno => absurd hmem hno⟩
      | false =>
        have hb : b = hash kv.1 % t.bc := by
          have := findTuple_bucket hash t kv.1
          rw [hft] at this
          exact this
        rcases hiic : insertInContainerF hash f t b kv with _ | ⟨t1, b2, ci⟩
        · simp only [hft, hiic] at hr
          exact absurd hr (by simp)
        · simp only [hft, hiic, Option.some.injEq] at hr
          obtain ⟨rfl, rfl, rfl⟩ : t1 = t' ∧ (b, ci) = p ∧ true = flag := by
            exact ⟨congrArg Prod.fst hr, congrArg (Prod.fst ∘ Prod.snd) hr,
              congrArg (Prod.snd ∘ Prod.snd) hr⟩
          have hnotin : kv.1 ∉ keysL t := by
            intro hmem
            obtain ⟨v, hv⟩ := mem_keysL.mp hmem
            obtain ⟨j, hj, _⟩ := findTuple_mem hwf hv
            rw [hft] at hj
            exact absurd hj (by simp)
          obtain ⟨hwf1, hperm1, hbc1, hb2, ⟨ch, hch, hci⟩, hcond1⟩ :=
            ihIic t b kv t1 b2 ci hwf hnotin hb hiic
          refine ⟨fun hmem => absurd hmem hnotin, fun _ => ?_⟩
          refine ⟨rfl, hwf1, hperm1, hbc1, ?_⟩
          intro hsz
          obtain ⟨hbc, hlen, rfl⟩ := hcond1 hsz
          exact ⟨hbc, hlen, entryAt_concat hch hci⟩
    have hIic : iicOk hash (f + 1) := by
      intro t b kv t' b' ci hwf hnotin hb hr
      rw [show insertInContainerF hash (f + 1) t b kv
          = (match rehashF hash f t (growLoop t.size t.buckets.length).1 with
            | none => none
            | some t1 =>
              let bb := if (growLoop t.size t.buckets.length).2
                then bucketPrivate hash t1 kv.1 else b
              let ch := chainAt t1 bb
              some ({ size := t1.size + 1
                      bc := t1.bc
                      first := if ch = [] ∧ bb < t1.first then bb else t1.first
                      last := if ch = [] ∧ bb > t1.last then bb else t1.last
                      buckets := t1.buckets.set bb (ch ++ [kv])
                      bits := if ch = [] then t1.bits.set bb true else t1.bits },
                    bb, ch.length))
        from rfl] at hr
      rcases hreh : rehashF hash f t (growLoop t.size t.buckets.length).1 with _ | t1
      · simp only [hreh] at hr
        exact absurd hr (by simp)
      · simp only [hreh] at hr
        obtain ⟨hwf1, hpermR, hbcR, hcondR⟩ := ihReh t _ t1 hwf hreh
        have hbcfact : (if (growLoop t.size t.buckets.length).2
            then bucketPrivate hash t1 kv.1 else b) = hash kv.1 % t1.bc := by
          cases hg : (growLoop t.size t.buckets.length).2 with
          | true => simp [bucketPrivate]
          | false =>
            obtain ⟨hG, hlt, hne⟩ := growLoop_false_inv (by rw [hg])
            have hcond := hcondR (by
              rw [hG]
              have h1 := hwf.1
              have h2 := hwf.2.1
              omega)
            rw [hG] at hcond
            have hbceq : t1.bc = t.bc := by
              have h1 := hwf.1
              omega
            rw [show (if (false : Bool) = true then bucketPrivate hash t1 kv.1 else b) = b
              from by simp]
            rw [hb, hbceq]
        set bb := (if (growLoop t.size t.buckets.length).2
          then bucketPrivate hash t1 kv.1 else b) with hbbdef
        have hbblt : bb < t1.buckets.length := by
          rw [hbcfact]
          have h1 := hwf1.1
          have h2 := hwf1.2.1
          have : hash kv.1 % t1.bc < t1.bc := Nat.mod_lt _ (by omega)
          omega
        simp only [Option.some.injEq] at hr
        obtain ⟨rfl, rfl, rfl⟩ : _ ∧ bb = b' ∧ (chainAt t1 bb).length = ci := by
          exact ⟨congrArg Prod.fst hr, congrArg (Prod.fst ∘ Prod.snd) hr,
            congrArg (Prod.snd ∘ Prod.snd) hr⟩
        set ch := chainAt t1 bb with hchdef
        set t2 : Table :=
          { size := t1.size + 1
            bc := t1.bc
            first := if ch = [] ∧ bb < t1.first then bb else t1.first
            last := if ch = [] ∧ bb > t1.last then bb else t1.last
            buckets := t1.buckets.set bb (ch ++ [kv])
            bits := if ch = [] then t1.bits.set bb true else t1.bits } with ht2def
        have hlen2 : t2.buckets.length = t1.buckets.length := by
          rw [ht2def]; exact List.length_set t1.buckets bb _
        have hchain2 : chainAt t2 bb = ch ++ [kv] := by
          show (t1.buckets.set bb (ch ++ [kv])).getD bb [] = ch ++ [kv]
          exact getD_set_self t1.buckets bb _ [] hbblt
        have hchain2ne : ∀ c, c ≠ bb → chainAt t2 c = chainAt t1 c := by
          intro c hc
          show (t1.buckets.set bb (ch ++ [kv])).getD c [] = t1.buckets.getD c []
          exact getD_set_ne t1.buckets bb c _ [] (fun h => hc h.symm)
        have hentperm : (entriesL t2).Perm (entriesL t1 ++ [kv]) := by
          show ((t1.buckets.set bb (ch ++ [kv])).flatten).Perm (t1.buckets.flatten ++ [kv])
          rw [hchdef]
          exact flatten_set_append_perm t1.buckets bb kv hbblt
        have hnotin1 : kv.1 ∉ keysL t1 := by
          intro hmem
          exact hnotin (((keysL_perm hpermR).mem_iff).mp hmem)
        have hknd2 : (keysL t2).Perm (kv.1 :: keysL t1) := by
          have h1 : (keysL t2).Perm (keysL t1 ++ [kv.1]) := by
            have h0 := hentperm.map Prod.fst
            rw [List.map_append] at h0
            exact h0
          exact h1.trans (List.perm_append_singleton kv.1 (keysL t1))
        have hbceq2 : t2.bc = t1.bc := rfl
        have hsz2 : t2.size = t1.size + 1 := rfl
        have hwf2 : WFcore hash t2 := by
          refine ⟨?_, ?_, ?_, ?_, ?_, ?_⟩
          · rw [hlen2, hbceq2]; exact hwf1.1
          · rw [hbceq2]; exact hwf1.2.1
          · show (if ch = [] then t1.bits.set bb true else t1.bits)
              = (t1.buckets.set bb (ch ++ [kv])).map (fun c => decide (c ≠ []))
            rw [List.map_set, ← hwf1.2.2.1]
            have hfval : (decide ((ch ++ [kv]) ≠ [])) = true := by simp
            rw [hfval]
            by_cases hch : ch = []
            · rw [if_pos hch]
            · rw [if_neg hch]
              have hchne : t1.buckets[bb] ≠ [] := by
                rw [hchdef] at hch
                unfold chainAt at hch
                rw [List.getD_eq_getElem?_getD, List.getElem?_eq_getElem hbblt] at hch
                simpa using hch
              have hbitsval : t1.bits.getD bb false = true := by
                rw [hwf1.2.2.1]
                rw [List.getD_eq_getElem?_getD, List.getElem?_map,
                  List.getElem?_eq_getElem hbblt]
                simp [hchne]
              conv_lhs => rw [← set_getD_self t1.bits bb false
                (by rw [hwf1.2.2.1, List.length_map]; exact hbblt)]
              rw [hbitsval]
          · intro c hc p hp
            rw [hbceq2]
            by_cases hcb : c = bb
            · rw [hcb] at hp ⊢
              rw [hchain2] at hp
              rcases List.mem_append.mp hp with hp1 | hp2
              · exact hwf1.2.2.2.1 bb hbblt p (by rw [hchdef] at hp1; exact hp1)
              · have hpkv : p = kv := by simpa using hp2
                rw [hpkv]
                exact hbcfact.symm
            · rw [hchain2ne c hcb] at hp
              exact hwf1.2.2.2.1 c (by rw [hlen2] at hc; exact hc) p hp
          · rw [hknd2.nodup_iff, List.nodup_cons]
            exact ⟨hnotin1, hwf1.2.2.2.2.1⟩
          · rw [hsz2, hentperm.length_eq, List.length_append, List.length_singleton,
              hwf1.2.2.2.2.2]
        refine ⟨hwf2, ?_, ?_, ?_, ?_, ?_⟩
        · exact hentperm.trans (hpermR.append_right [kv])
        · rw [hbceq2]; exact Nat.le_trans hbcR (Nat.le_refl _)
        · rw [hbceq2]; exact hbcfact
        · exact ⟨ch, hchain2, rfl⟩
        · intro hsz
          have hne0 : t.buckets.length ≠ 0 := by
            have := hwf.1; omega
          have hg : growLoop t.size t.buckets.length = (t.buckets.length, false) :=
            growLoop_of_lt hne0 hsz
          have hcond := hcondR (by
            rw [hg]
            have h1 := hwf.1
            have h2 := hwf.2.1
            omega)
          rw [hg] at hcond
          have hbc1t : t1.bc = t.bc := by
            have h1 := hwf.1
            omega
          have hlen1t : t1.buckets.length = t.buckets.length := hcond.2
          refine ⟨by rw [hbceq2, hbc1t], by rw [hlen2, hlen1t], ?_⟩
          rw [hbbdef]
          rw [show (growLoop t.size t.buckets.length).2 = false from by rw [hg]]
          simp
    exact ⟨hReh, hList, hIns, hIic⟩

/-! ### Writing through the `operator[]` reference -/

theorem getD_map_of_lt {α β : Type} (f : α → β) (l : List α) (i : Nat)
    (d : β) (d0 : α) (h : i < l.length) :
    (l.map f).getD i d = f (l.getD i d0) := by
  rw [List.getD_eq_getElem?_getD, List.getD_eq_getElem?_getD, List.getElem?_map,
    List.getElem?_eq_getElem h]
  rfl

theorem setValAt_spec {hash : Nat → Nat} {t : Table} (hwf : WFcore hash t)
    {b i k w : Nat} (hb : b < t.buckets.length)
    (hslot : (chainAt t b)[i]? = some (k, w)) (v : Nat) :
    WFcore hash (setValAt t b i v) ∧ (k, v) ∈ entriesL (setValAt t b i v) := by
  have hi : i < (chainAt t b).length := by
    by_contra hcon
    rw [List.getElem?_eq_none (by omega)] at hslot
    exact absurd hslot (by simp)
  have hgd : (chainAt t b).getD i (0, 0) = (k, w) := by
    rw [List.getD_eq_getElem?_getD, hslot]; rfl
  have hchain' : chainAt (setValAt t b i v) b = (chainAt t b).set i (k, v) := by
    show (t.buckets.set b ((chainAt t b).set i (((chainAt t b).getD i (0, 0)).1, v))).getD b []
      = (chainAt t b).set i (k, v)
    rw [getD_set_self _ _ _ _ hb, hgd]
  have hchain'ne : ∀ c, c ≠ b → chainAt (setValAt t b i v) c = chainAt t c := by
    intro c hc
    show (t.buckets.set b _).getD c [] = t.buckets.getD c []
    exact getD_set_ne _ _ _ _ _ (fun h => hc h.symm)
  have hkmem : (k, w) ∈ chainAt t b := List.getElem?_mem hslot
  have hmem' : (k, v) ∈ entriesL (setValAt t b i v) := by
    rw [mem_entriesL]
    refine ⟨b, ?_, ?_⟩
    · show b < (t.buckets.set b _).length
      rw [List.length_set]; exact hb
    · rw [hchain']
      exact List.mem_set (chainAt t b) i (by omega) (k, v)
  have hkeych : ((chainAt t b).set i (k, v)).map Prod.fst = (chainAt t b).map Prod.fst := by
    rw [List.map_set]
    have : ((chainAt t b).map Prod.fst).getD i 0 = k := by
      rw [getD_map_of_lt Prod.fst _ i 0 (0, 0) hi, hgd]
    rw [show ((k, v).1 : Nat) = k from rfl, ← this]
    exact set_getD_self _ _ _ (by rw [List.length_map]; exact hi)
  have hgd1 : ((chainAt t b).getD i (0, 0)).1 = k := by rw [hgd]
  have hkeys : keysL (setValAt t b i v) = keysL t := by
    show ((t.buckets.set b ((chainAt t b).set i (((chainAt t b).getD i (0, 0)).1, v))).flatten).map
        Prod.fst = (t.buckets.flatten).map Prod.fst
    rw [hgd1, List.map_flatten, List.map_flatten, List.map_set]
    congr 1
    rw [hkeych]
    have hgd2 : (t.buckets.map (List.map Prod.fst)).getD b [] = (chainAt t b).map Prod.fst := by
      rw [getD_map_of_lt (List.map Prod.fst) _ b [] [] hb]
      rfl
    rw [← hgd2]
    exact set_getD_self _ _ _ (by rw [List.length_map]; exact hb)
  refine ⟨⟨?_, ?_, ?_, ?_, ?_, ?_⟩, hmem'⟩
  · show (t.buckets.set b _).length = t.bc + 1
    rw [List.length_set]; exact hwf.1
  · exact hwf.2.1
  · show t.bits = (t.buckets.set b ((chainAt t b).set i (((chainAt t b).getD i (0, 0)).1, v))).map
      (fun c => decide (c ≠ []))
    rw [hgd1, List.map_set]
    have hdec : (decide (((chainAt t b).set i (k, v)) ≠ []))
        = decide ((chainAt t b) ≠ []) := by
      have hlen : ((chainAt t b).set i (k, v)).length = (chainAt t b).length :=
        List.length_set _ _ _
      apply decide_eq_decide.mpr
      constructor
      · intro h hc
        apply h
        rw [← List.length_eq_zero, hlen, List.length_eq_zero]
        exact hc
      · intro h hc
        apply h
        rw [← List.length_eq_zero, ← hlen, List.length_eq_zero]
        exact hc
    rw [hdec]
    have hgd3 : (t.buckets.map (fun c => decide (c ≠ []))).getD b false
        = decide ((chainAt t b) ≠ []) := by
      rw [getD_map_of_lt _ _ b false [] hb]
      rfl
    rw [← hgd3, set_getD_self _ _ _ (by rw [List.length_map]; exact hb)]
    exact hwf.2.2.1
  · intro c hc p hp
    by_cases hcb : c = b
    · rw [hcb] at hp ⊢
      rw [hchain'] at hp
      rcases List.mem_or_eq_of_mem_set hp with hp1 | hp2
      · exact hwf.2.2.2.1 b hb p hp1
      · rw [hp2]
        exact hwf.2.2.2.1 b hb (k, w) hkmem
    · rw [hchain'ne c hcb] at hp
      have hlenst : (setValAt t b i v).buckets.length = t.buckets.length :=
        List.length_set _ _ _
      exact hwf.2.2.2.1 c (by omega) p hp
  · rw [show keysL (setValAt t b i v) = keysL t from hkeys]
    exact hwf.2.2.2.2.1
  · show t.size = (entriesL (setValAt t b i v)).length
    have h1 : (entriesL (setValAt t b i v)).length = (keysL (setValAt t b i v)).length := by
      unfold keysL
      rw [List.length_map]
    have h2 : (entriesL t).length = (keysL t).length := by
      unfold keysL
      rw [List.length_map]
    rw [h1, hkeys, ← h2]
    exact hwf.2.2.2.2.2

theorem not_mem_of_findTuple_false {hash : Nat → Nat} {t : Table}
    (hwf : WFcore hash t) {k b i : Nat}
    (hft : findTuple hash t k = (false, b, i)) : k ∉ keysL t := by
  intro hk
  obtain ⟨v, hv⟩ := mem_keysL.mp hk
  obtain ⟨j, hj, _⟩ := findTuple_mem hwf hv
  rw [hft] at hj
  exact absurd hj (by simp)

/-! ### Concrete tables used by the evaluation theorems and witnesses -/

/-- The identity hash, matching `std::hash<int>` on small non-negative
ints. -/
def idHash : Nat → Nat := fun k => k

/-- The default-capacity table after `insert({0, 0})`. -/
def tOne : Table :=
  ⟨1, 7, 0, 0, [[(0, 0)], [], [], [], [], [], [], []],
    [true, false, false, false, false, false, false, false]⟩

/-- `tOne` after `insert({1, 1})`. -/
def tTwo : Table :=
  ⟨2, 7, 0, 1, [[(0, 0)], [(1, 1)], [], [], [], [], [], []],
    [true, true, false, false, false, false, false, false]⟩

/-- `tOne` after erasing its only entry (note the stale
`_first_nonempty_bucket`). -/
def tStuck : Table :=
  ⟨0, 7, 0, 0, [[], [], [], [], [], [], [], []],
    [false, false, false, false, false, false, false, false]⟩

/-- `tOne` after `rehash(16)`. -/
def tR16 : Table :=
  ⟨1, 15, 0, 0,
    [[(0, 0)], [], [], [], [], [], [], [], [], [], [], [], [], [], [], []],
    [true, false, false, false, false, false, false, false,
     false, false, false, false, false, false, false, false]⟩

/-- `tOne` after the upsert miss `ht[3]` (default value 0 inserted). -/
def tUp0 : Table :=
  ⟨2, 7, 0, 3, [[(0, 0)], [], [], [(3, 0)], [], [], [], []],
    [true, false, false, true, false, false, false, false]⟩

/-! ### The claims -/

/-- C1: over a well-formed table, `find(k)` returns an iterator positioned
at the entry `(k, v)` whenever `(k, v)` is stored (in particular right after
`insert({k, v})` of a fresh key or the upsert `ht[k] = v`), and the canonical
end iterator whenever `k` is absent; `_find` is `const`, so `find` never
modifies the table (the model is a pure function of the table). -/
theorem find_roundtrip (hash : Nat → Nat) (t : Table) (k v : Nat) (f : Nat)
    (hwf : WFcore hash t) :
    ((k, v) ∈ entriesL t → entryAt t (findIt hash t k) = some (k, v))
    ∧ (k ∉ keysL t → findIt hash t k = endPos t)
    ∧ (∀ t' p flag, k ∉ keysL t → insertF hash f t (k, v) = some (t', p, flag) →
        entryAt t' (findIt hash t' k) = some (k, v))
    ∧ (∀ t', opIndexAssignF hash f t k v = some t' →
        entryAt t' (findIt hash t' k) = some (k, v)) := by
  refine ⟨fun hm => (findIt_mem hwf hm).1, fun hk => findIt_not_mem hk, ?_, ?_⟩
  · intro t' p flag hk hins
    obtain ⟨_, hnew⟩ := (opSpec hash f).2.2.1 t (k, v) t' p flag hwf hins
    obtain ⟨_, hwf', hperm, _⟩ := hnew hk
    have hm' : (k, v) ∈ entriesL t' := hperm.mem_iff.mpr (by simp)
    exact (findIt_mem hwf' hm').1
  · intro t' hup
    unfold opIndexAssignF opIndexF at hup
    rcases hft : findTuple hash t k with ⟨fd, b, i⟩
    cases fd with
    | true =>
      simp only [hft] at hup
      have hk : k ∈ keysL t := findTuple_true_mem hft
      obtain ⟨w, hw⟩ := mem_keysL.mp hk
      obtain ⟨i0, hft0, hget0⟩ := findTuple_mem hwf hw
      rw [hft] at hft0
      obtain ⟨hb0, hi0⟩ : b = hash k % t.bc ∧ i = i0 := by
        have h1 := congrArg (Prod.fst ∘ Prod.snd) hft0
        have h2 := congrArg (Prod.snd ∘ Prod.snd) hft0
        exact ⟨h1, h2⟩
      obtain rfl : setValAt t b i v = t' := by
        have := hup
        simpa using this
      have hblt : b < t.buckets.length := by
        rw [hb0]
        have h1 := hwf.1
        have h2 := hwf.2.1
        have : hash k % t.bc < t.bc := Nat.mod_lt _ (by omega)
        omega
      have hslot : (chainAt t b)[i]? = some (k, w) := by
        rw [hb0, hi0]; exact hget0
      obtain ⟨hwf', hm'⟩ := setValAt_spec hwf hblt hslot v
      exact (findIt_mem hwf' hm').1
    | false =>
      simp only [hft] at hup
      have hk : k ∉ keysL t := not_mem_of_findTuple_false hwf hft
      have hb : b = hash k % t.bc := by
        have := findTuple_bucket hash t k
        rw [hft] at this
        exact this
      rcases hiic : insertInContainerF hash f t b (k, 0) with _ | ⟨t1, b2, ci⟩
      · rw [hiic] at hup; exact absurd hup (by simp)
      · simp only [hiic] at hup
        obtain rfl : setValAt t1 b2 ci v = t' := by simpa using hup
        obtain ⟨hwf1, hperm1, _, hb2, ⟨ch, hch, hci⟩, _⟩ :=
          (opSpec hash f).2.2.2 t b (k, 0) t1 b2 ci hwf hk hb hiic
        have hb2lt : b2 < t1.buckets.length := by
          have hb2' : b2 = hash k % t1.bc := hb2
          rw [hb2']
          have h1 := hwf1.1
          have h2 := hwf1.2.1
          have : hash k % t1.bc < t1.bc := Nat.mod_lt _ (by omega)
          omega
        have hslot : (chainAt t1 b2)[ci]? = some (k, 0) := by
          have := entryAt_concat hch hci
          exact this
        obtain ⟨hwf', hm'⟩ := setValAt_spec hwf1 hb2lt hslot v
        exact (findIt_mem hwf' hm').1

/-- Witness for C1 at a concrete table. -/
theorem find_roundtrip_witness :
    entryAt tOne (findIt idHash tOne 0) = some (0, 0)
    ∧ findIt idHash tOne 5 = endPos tOne :=
  ⟨(find_roundtrip idHash tOne 0 0 0 (by decide)).1 (by decide),
    (find_roundtrip idHash tOne 5 0 0 (by decide)).2.1 (by decide)⟩

/-- C2 counterexample: inserting a pair with an already-present key returns
the end iterator `(7, 0)` — a position holding no entry — not an iterator
positioned at the pre-existing entry, which sits at `(0, 0)`. -/
theorem insert_duplicate_returns_end_counterexample :
    insertF idHash 6 tOne (0, 5) = some (tOne, (7, 0), false)
    ∧ endPos tOne = (7, 0)
    ∧ entryAt tOne (7, 0) = none
    ∧ findIt idHash tOne 0 = (0, 0)
    ∧ entryAt tOne (0, 0) = some (0, 0) := by decide

/-- C2 (amended): on a duplicate key, `insert` leaves the table unchanged
and returns the pair `(end(), false)` (not an iterator to the pre-existing
entry); on a fresh key it inserts the entry and returns `true`, and the
returned iterator addresses the new entry provided the insertion did not
trigger capacity growth (under growth the iterator keeps the bucket index
computed against the pre-growth modulus). -/
theorem insert_contract (hash : Nat → Nat) (t : Table) (k v : Nat) (f : Nat)
    (hwf : WFcore hash t) :
    (k ∈ keysL t → insertF hash (f + 1) t (k, v) = some (t, endPos t, false))
    ∧ (∀ t' p flag, k ∉ keysL t → insertF hash f t (k, v) = some (t', p, flag) →
        flag = true ∧ (k, v) ∈ entriesL t'
        ∧ (t.size + 1 < t.buckets.length → entryAt t' p = some (k, v))) := by
  constructor
  · intro hk
    obtain ⟨w, hw⟩ := mem_keysL.mp hk
    obtain ⟨i, hft, _⟩ := findTuple_mem hwf hw
    have hunf : insertF hash (f + 1) t (k, v)
        = (match findTuple hash t k with
           | (true, _, _) => some (t, endPos t, false)
           | (false, b, _) =>
             match insertInContainerF hash f t b (k, v) with
             | none => none
             | some (t1, _, ci) => some (t1, (b, ci), true)) := rfl
    rw [hunf, hft]
  · intro t' p flag hk hins
    obtain ⟨_, hnew⟩ := (opSpec hash f).2.2.1 t (k, v) t' p flag hwf hins
    obtain ⟨hflag, hwf', hperm, _, hcond⟩ := hnew hk
    exact ⟨hflag, hperm.mem_iff.mpr (by simp), fun hsz => (hcond hsz).2.2⟩

/-- Witness for C2 (amended) at concrete tables: the duplicate case on
`tOne`, and the fresh-key case producing `tTwo`. -/
theorem insert_contract_witness :
    insertF idHash 13 tOne (0, 5) = some (tOne, endPos tOne, false)
    ∧ (true = true ∧ (1, 1) ∈ entriesL tTwo
        ∧ (tOne.size + 1 < tOne.buckets.length → entryAt tTwo (1, 0) = some (1, 1))) :=
  ⟨(insert_contract idHash tOne 0 5 12 (by decide)).1 (by decide),
    (insert_contract idHash tOne 1 1 12 (by decide)).2 tTwo (1, 0) true (by decide)
      (by decide)⟩

/-- C3: on the one-entry table `tOne` (built by `insert({0, 0})`),
advancing the iterator positioned at the last (and only) live entry yields
`(0, 1)`, not the end iterator `(7, 0)`, and advancing again leaves it stuck
at `(0, 1)`: iteration from `begin()` visits the `size() = 1` entries but
never reaches `end()`, contradicting the claim and the repository's own
`Iterator*Increment` tests. -/
theorem iterator_misses_end_at_last_entry :
    insertF idHash 6 (Table.init 8) (0, 0) = some (tOne, (0, 0), true)
    ∧ tOne.size = 1
    ∧ beginPos tOne = (0, 0)
    ∧ entryAt tOne (beginPos tOne) = some (0, 0)
    ∧ endPos tOne = (7, 0)
    ∧ advancePos tOne (beginPos tOne) = (0, 1)
    ∧ advancePos tOne (beginPos tOne) ≠ endPos tOne
    ∧ advancePos tOne (0, 1) = (0, 1) := by decide

/-- C4: a successful `rehash(n)` preserves the size, the stored pairs, and
the findability of every stored key. -/
theorem rehash_preserves_contents (hash : Nat → Nat) (t : Table) (n f : Nat)
    (t' : Table) (hwf : WFcore hash t) (hr : rehashF hash f t n = some t') :
    t'.size = t.size
    ∧ (∀ kv : Nat × Nat, kv ∈ entriesL t' ↔ kv ∈ entriesL t)
    ∧ (∀ k v, (k, v) ∈ entriesL t → entryAt t' (findIt hash t' k) = some (k, v)) := by
  obtain ⟨hwf', hperm, _, _⟩ := (opSpec hash f).1 t n t' hwf hr
  refine ⟨?_, fun kv => hperm.mem_iff, fun k v hm =>
    (findIt_mem hwf' (hperm.mem_iff.mpr hm)).1⟩
  rw [hwf'.2.2.2.2.2, hperm.length_eq, ← hwf.2.2.2.2.2]

/-- Witness for C4: `rehash(16)` on `tOne` yields `tR16` with identical
contents. -/
theorem rehash_preserves_contents_witness :
    tR16.size = tOne.size
    ∧ (∀ kv : Nat × Nat, kv ∈ entriesL tR16 ↔ kv ∈ entriesL tOne)
    ∧ (∀ k v, (k, v) ∈ entriesL tOne → entryAt tR16 (findIt idHash tR16 k) = some (k, v)) :=
  rehash_preserves_contents idHash tOne 16 10 tR16 (by decide) (by decide)

/-- From the stuck state reached after `erase(begin())` on a one-entry
table, the range-erase loop makes no further progress for any fuel. -/
theorem rangeErase_stuck : ∀ f, rangeEraseF f tStuck (0, 0) (7, 0) = none := by
  intro f
  induction f with
  | zero => rfl
  | succ f ih =>
    have h1 : (eraseIt tStuck (0, 0)).1 = tStuck := by decide
    have h2 : advancePos tStuck (0, 0) = (0, 0) := by decide
    simp only [rangeEraseF]
    rw [if_neg (by decide : ¬((0, 0) : Nat × Nat) = (7, 0))]
    rw [h1, h2]
    exact ih

/-- C6: erasing the full range `[begin(), end())` of the one-entry table
`tOne` never terminates: after the single entry is erased the cursor sticks
at `(0, 0)`, which never compares equal to `end() = (7, 0)`, so the loop of
`erase(first, last)` runs forever (the model returns `none` for every fuel),
and the `size() == 0, begin() == end()` postcondition asserted by the
repository's `EraseRange` test is never reached. -/
theorem range_erase_full_never_terminates :
    insertF idHash 6 (Table.init 8) (0, 0) = some (tOne, (0, 0), true)
    ∧ tOne.size = 1
    ∧ beginPos tOne = (0, 0)
    ∧ endPos tOne = (7, 0)
    ∧ (eraseIt tOne (0, 0)).1 = tStuck
    ∧ tStuck.size = 0
    ∧ (∀ f, rangeEraseF f tOne (beginPos tOne) (endPos tOne) = none) := by
  refine ⟨by decide, by decide, by decide, by decide, by decide, by decide, ?_⟩
  intro f
  cases f with
  | zero => rfl
  | succ f =>
    rw [show beginPos tOne = ((0, 0) : Nat × Nat) from by decide,
      show endPos tOne = ((7, 0) : Nat × Nat) from by decide]
    simp only [rangeEraseF]
    rw [if_neg (by decide : ¬((0, 0) : Nat × Nat) = (7, 0))]
    rw [show (eraseIt tOne (0, 0)).1 = tStuck from by decide]
    rw [show advancePos tStuck (0, 0) = ((0, 0) : Nat × Nat) from by decide]
    exact rangeErase_stuck f

/-- C7 counterexample: in `tOne` (holding only the key 0), `count(7)`
returns 1 even though key 7 is absent — key 7 hashes to the same bucket as
key 0 and `count` only tests bucket emptiness. -/
theorem count_one_for_absent_key_counterexample :
    countK idHash tOne 7 = 1
    ∧ 7 ∉ keysL tOne
    ∧ findIt idHash tOne 7 = endPos tOne := by decide

/-- C7 (amended): `count(k)` only ever returns 0 or 1; it returns 1 exactly
when the chain of `bucket(k)` is non-empty.  Hence it returns 1 whenever `k`
is stored and 0 only when `k` is absent, but it may also return 1 for an
absent key that shares a bucket with stored keys. -/
theorem count_reports_bucket_occupancy (hash : Nat → Nat) (t : Table) (k : Nat)
    (hwf : WFcore hash t) :
    (countK hash t k = 0 ∨ countK hash t k = 1)
    ∧ (k ∈ keysL t → countK hash t k = 1)
    ∧ (countK hash t k = 0 → k ∉ keysL t)
    ∧ (countK hash t k = 1 ↔ chainAt t (bucketPrivate hash t k) ≠ []) := by
  unfold countK
  by_cases h : chainAt t (bucketPrivate hash t k) = []
  · rw [if_pos h]
    have hnot : k ∉ keysL t := by
      intro hk
      obtain ⟨v, hv⟩ := mem_keysL.mp hk
      have hm := mem_chain_of_mem_entries hwf hv
      have h' : chainAt t (hash k % t.bc) = [] := h
      rw [h'] at hm
      exact absurd hm (List.not_mem_nil _)
    refine ⟨Or.inl rfl, fun hk => absurd hk hnot, fun _ => hnot, ?_⟩
    constructor
    · intro h01; exact absurd h01 (by simp)
    · intro hne; exact absurd h hne
  · rw [if_neg h]
    exact ⟨Or.inr rfl, fun _ => rfl, fun h10 => absurd h10 (by simp),
      ⟨fun _ => h, fun _ => rfl⟩⟩

/-- Witness for C7 (amended). -/
theorem count_occupancy_witness : countK idHash tOne 0 = 1 :=
  (count_reports_bucket_occupancy idHash tOne 0 (by decide)).2.1 (by decide)

/-- C8: strict access `at(k)` raises the `KeyNotFound` condition
(`std::out_of_range`) exactly when `k` is absent and never changes the
table (its table component is the input table on every path); when `k` is
stored with value `v` it returns `v`.  `find` and `count` are total
functions that never raise (`count` only ever yields 0 or 1).  The upsert
accessor `operator[]` never raises either: on a miss it inserts a
default-constructed value (0) for `k` and hands back a reference to exactly
that slot. -/
theorem at_strict_policy (hash : Nat → Nat) (t : Table) (k : Nat) (f : Nat)
    (hwf : WFcore hash t) :
    (atM hash t k).1 = t
    ∧ (∀ v, (k, v) ∈ entriesL t → atM hash t k = (t, Except.ok v))
    ∧ ((atM hash t k).2 = Except.error () ↔ k ∉ keysL t)
    ∧ (countK hash t k = 0 ∨ countK hash t k = 1)
    ∧ (∀ t' b i, k ∉ keysL t → opIndexF hash f t k = some (t', b, i) →
        WFcore hash t' ∧ entryAt t' (b, i) = some (k, 0) ∧ (k, 0) ∈ entriesL t') := by
  have hok : ∀ v, (k, v) ∈ entriesL t → atM hash t k = (t, Except.ok v) := by
    intro v hv
    obtain ⟨i, hft, hget⟩ := findTuple_mem hwf hv
    have hgd : ((chainAt t (hash k % t.bc)).getD i (0, 0)) = (k, v) := by
      rw [List.getD_eq_getElem?_getD, hget]
      rfl
    simp only [atM, hft, hgd]
  refine ⟨?_, hok, ?_, ?_, ?_⟩
  · rcases hft : findTuple hash t k with ⟨fd, b, i⟩
    cases fd <;> simp [atM, hft]
  · constructor
    · intro herr hk
      obtain ⟨v, hv⟩ := mem_keysL.mp hk
      rw [hok v hv] at herr
      exact absurd herr (by simp)
    · intro hk
      have hft := @findTuple_not_mem hash t k hk
      simp only [atM, hft]
  · unfold countK
    by_cases h : chainAt t (bucketPrivate hash t k) = []
    · rw [if_pos h]; exact Or.inl rfl
    · rw [if_neg h]; exact Or.inr rfl
  · intro t' b i hk hop
    have hft := @findTuple_not_mem hash t k hk
    unfold opIndexF at hop
    simp only [hft] at hop
    have hiic : insertInContainerF hash f t (hash k % t.bc) (k, 0) = some (t', b, i) := by
      rcases hval : insertInContainerF hash f t (hash k % t.bc) (k, 0) with _ | v
      · rw [hval] at hop
        exact absurd hop (by simp)
      · rw [hval] at hop
        obtain ⟨t1, b2, ci⟩ := v
        exact hop
    obtain ⟨hwf1, hperm, _, hb', ⟨ch, hch, hci⟩, _⟩ :=
      (opSpec hash f).2.2.2 t (hash k % t.bc) (k, 0) t' b i hwf hk rfl hiic
    exact ⟨hwf1, entryAt_concat hch hci, hperm.mem_iff.mpr (by simp)⟩

/-- Witness for C8: `at(5)` raises on the one-entry table and changes
nothing, `at(0)` returns the stored value, and the upsert miss `ht[3]`
inserts `(3, 0)` and returns its slot. -/
theorem at_strict_policy_witness :
    (atM idHash tOne 5).1 = tOne
    ∧ atM idHash tOne 0 = (tOne, Except.ok 0)
    ∧ (WFcore idHash tUp0 ∧ entryAt tUp0 (3, 0) = some (3, 0)
        ∧ (3, 0) ∈ entriesL tUp0) :=
  ⟨(at_strict_policy idHash tOne 5 12 (by decide)).1,
    (at_strict_policy idHash tOne 0 12 (by decide)).2.1 0 (by decide),
    (at_strict_policy idHash tOne 3 12 (by decide)).2.2.2.2 tUp0 3 0 (by decide)
      (by decide)⟩

/-- C9 counterexample: a table constructed with `bucket_count = 1` has
`_bucket_count = 0`, so `bucket_private` reduces modulo zero; with a hash
function returning 5 the computed index is 5, far outside
`[0, bucket_count())`. -/
theorem bucket_index_breaks_at_capacity_one :
    (Table.init 1).buckets.length = 1
    ∧ (Table.init 1).bc = 0
    ∧ bucketPrivate (fun _ => 5) (Table.init 1) 0 = 5
    ∧ ¬(bucketPrivate (fun _ => 5) (Table.init 1) 0 < (Table.init 1).buckets.length) := by
  decide

/-- C9 (amended): for every table whose bucket array satisfies the
constructed shape `bucket_count() = _bucket_count + 1` with
`_bucket_count ≥ 1` (i.e. `bucket_count() ≥ 2`), the divisor is positive and
`bucket(k)` lands in `[0, _bucket_count) ⊂ [0, bucket_count())`; the
function is pure and deterministic by construction (it is a function of the
hash, the key and the capacity only). -/
theorem bucket_index_in_range (hash : Nat → Nat) (t : Table) (k : Nat)
    (hlen : t.buckets.length = t.bc + 1) (hbc : 1 ≤ t.bc) :
    0 < t.bc ∧ bucketPrivate hash t k < t.bc
    ∧ bucketPrivate hash t k < t.buckets.length := by
  have h : hash k % t.bc < t.bc := Nat.mod_lt _ (by omega)
  refine ⟨by omega, h, ?_⟩
  show hash k % t.bc < t.buckets.length
  omega

/-- Witness for C9 (amended). -/
theorem bucket_index_in_range_witness :
    (Table.init 8).buckets.length = (Table.init 8).bc + 1
    ∧ (0 < (Table.init 8).bc
        ∧ bucketPrivate idHash (Table.init 8) 3 < (Table.init 8).bc
        ∧ bucketPrivate idHash (Table.init 8) 3 < (Table.init 8).buckets.length) :=
  ⟨by decide, bucket_index_in_range idHash (Table.init 8) 3 (by decide) (by decide)⟩

/-- C10: over a well-formed table every stored entry lives in a bucket of
index strictly below `bucket_count() − 1` (keys are reduced modulo
`_bucket_count = bucket_count() − 1`), the final bucket is therefore empty,
the end iterator is exactly `(bucket_count() − 1, 0)` inside that bucket,
and any successful `insert` preserves the emptiness of the final bucket. -/
theorem final_bucket_reserved_for_end (hash : Nat → Nat) (t : Table) (f : Nat)
    (hwf : WFcore hash t) :
    chainAt t (t.buckets.length - 1) = []
    ∧ endPos t = (t.buckets.length - 1, 0)
    ∧ (∀ b p, p ∈ chainAt t b → b < t.buckets.length - 1)
    ∧ (∀ kv r, insertF hash f t kv = some r →
        chainAt r.1 (r.1.buckets.length - 1) = []) := by
  have hmain : ∀ (t0 : Table), WFcore hash t0 →
      ∀ b p, p ∈ chainAt t0 b → b < t0.buckets.length - 1 := by
    intro t0 h0 b p hp
    by_cases hblt : b < t0.buckets.length
    · have hplace := h0.2.2.2.1 b hblt p hp
      have hmod : hash p.1 % t0.bc < t0.bc := Nat.mod_lt _ (by
        have := h0.2.1
        omega)
      have hl := h0.1
      omega
    · exfalso
      have hempty : chainAt t0 b = [] := by
        unfold chainAt
        rw [List.getD_eq_default]
        omega
      rw [hempty] at hp
      exact absurd hp (List.not_mem_nil p)
  have hempty : ∀ (t0 : Table), WFcore hash t0 →
      chainAt t0 (t0.buckets.length - 1) = [] := by
    intro t0 h0
    rw [List.eq_nil_iff_forall_not_mem]
    intro p hp
    have := hmain t0 h0 _ p hp
    omega
  refine ⟨hempty t hwf, rfl, hmain t hwf, ?_⟩
  intro kv r hins
  obtain ⟨t', q, flag⟩ := r
  by_cases hk : kv.1 ∈ keysL t
  · obtain ⟨heq, _, _⟩ := ((opSpec hash f).2.2.1 t kv t' q flag hwf hins).1 hk
    show chainAt t' (t'.buckets.length - 1) = []
    rw [heq]
    exact hempty t hwf
  · obtain ⟨_, hwf', _⟩ := ((opSpec hash f).2.2.1 t kv t' q flag hwf hins).2 hk
    exact hempty t' hwf'

/-- Witness for C10. -/
theorem final_bucket_reserved_witness :
    chainAt tOne (tOne.buckets.length - 1) = []
    ∧ endPos tOne = (tOne.buckets.length - 1, 0) :=
  ⟨(final_bucket_reserved_for_end idHash tOne 0 (by decide)).1,
    (final_bucket_reserved_for_end idHash tOne 0 (by decide)).2.1⟩

/-! ### Specifications of the occupancy-set scans -/

theorem findFirstBit_none {bits : List Bool} (h : findFirstBit bits = none) :
    ∀ j, bits.getD j false = false := by
  induction bits with
  | nil => intro j; simp
  | cons x rest ih =>
    cases x with
    | true => simp [findFirstBit] at h
    | false =>
      have h' : findFirstBit rest = none := by
        rcases hr : findFirstBit rest with _ | v
        · rfl
        · rw [show findFirstBit (false :: rest) = (findFirstBit rest).map (· + 1) from rfl,
            hr] at h
          exact absurd h (by simp)
      intro j
      cases j with
      | zero => rfl
      | succ j0 =>
        rw [List.getD_cons_succ]
        exact ih h' j0

theorem findFirstBit_some {bits : List Bool} {j : Nat} (h : findFirstBit bits = some j) :
    bits.getD j false = true ∧ ∀ i, i < j → bits.getD i false = false := by
  induction bits generalizing j with
  | nil => simp [findFirstBit] at h
  | cons x rest ih =>
    cases x with
    | true =>
      have hj : j = 0 := by simpa [findFirstBit] using h.symm
      subst hj
      exact ⟨rfl, fun i hi => absurd hi (by omega)⟩
    | false =>
      rcases hr : findFirstBit rest with _ | j0
      · rw [show findFirstBit (false :: rest) = (findFirstBit rest).map (· + 1) from rfl,
          hr] at h
        exact absurd h (by simp)
      · rw [show findFirstBit (false :: rest) = (findFirstBit rest).map (· + 1) from rfl,
          hr] at h
        simp only [Option.map] at h
        obtain rfl : j = j0 + 1 := by injection h with h2; omega
        obtain ⟨h1, h2⟩ := ih hr
        refine ⟨by simpa using h1, ?_⟩
        intro i hi
        cases i with
        | zero => rfl
        | succ i0 =>
          rw [List.getD_cons_succ]
          exact h2 i0 (by omega)

theorem findNextBit_none {bits : List Bool} {p : Nat} (h : findNextBit bits p = none) :
    ∀ j, p < j → bits.getD j false = false := by
  induction bits generalizing p with
  | nil => intro j _; simp
  | cons x rest ih =>
    cases p with
    | zero =>
      have h' : findFirstBit rest = none := by
        rcases hr : findFirstBit rest with _ | v
        · rfl
        · rw [show findNextBit (x :: rest) 0 = (findFirstBit rest).map (· + 1) from rfl,
            hr] at h
          exact absurd h (by simp)
      intro j hj
      rcases j with _ | j0
      · omega
      · rw [List.getD_cons_succ]
        exact findFirstBit_none h' j0
    | succ p0 =>
      have h' : findNextBit rest p0 = none := by
        rcases hr : findNextBit rest p0 with _ | v
        · rfl
        · rw [show findNextBit (x :: rest) (p0 + 1) = (findNextBit rest p0).map (· + 1)
            from rfl, hr] at h
          exact absurd h (by simp)
      intro j hj
      rcases j with _ | j0
      · omega
      · rw [List.getD_cons_succ]
        exact ih h' j0 (by omega)

theorem findNextBit_some {bits : List Bool} {p j : Nat}
    (h : findNextBit bits p = some j) :
    p < j ∧ bits.getD j false = true
      ∧ ∀ i, p < i → i < j → bits.getD i false = false := by
  induction bits generalizing p j with
  | nil => simp [findNextBit] at h
  | cons x rest ih =>
    cases p with
    | zero =>
      rcases hr : findFirstBit rest with _ | j0
      · rw [show findNextBit (x :: rest) 0 = (findFirstBit rest).map (· + 1) from rfl,
          hr] at h
        exact absurd h (by simp)
      · rw [show findNextBit (x :: rest) 0 = (findFirstBit rest).map (· + 1) from rfl,
          hr] at h
        simp only [Option.map] at h
        obtain rfl : j = j0 + 1 := by injection h with h2; omega
        obtain ⟨h1, h2⟩ := findFirstBit_some hr
        refine ⟨by omega, by simpa using h1, ?_⟩
        intro i hi1 hi2
        rcases i with _ | i0
        · omega
        · rw [List.getD_cons_succ]
          exact h2 i0 (by omega)
    | succ p0 =>
      rcases hr : findNextBit rest p0 with _ | j0
      · rw [show findNextBit (x :: rest) (p0 + 1) = (findNextBit rest p0).map (· + 1)
          from rfl, hr] at h
        exact absurd h (by simp)
      · rw [show findNextBit (x :: rest) (p0 + 1) = (findNextBit rest p0).map (· + 1)
          from rfl, hr] at h
        simp only [Option.map] at h
        obtain rfl : j = j0 + 1 := by injection h with h2; omega
        obtain ⟨h1, h2, h3⟩ := ih hr
        refine ⟨by omega, by simpa using h2, ?_⟩
        intro i hi1 hi2
        rcases i with _ | i0
        · omega
        · rw [List.getD_cons_succ]
          exact h3 i0 (by omega) (by omega)

theorem findPrevNonempty_none {bk : List (List (Nat × Nat))} {b : Nat}
    (h : findPrevNonempty bk b = none) : ∀ j, j < b → bk.getD j [] = [] := by
  induction b with
  | zero => intro j hj; omega
  | succ m ih =>
    rw [show findPrevNonempty bk (m + 1)
        = if bk.getD m [] ≠ [] then some m else findPrevNonempty bk m from rfl] at h
    by_cases hm : bk.getD m [] ≠ []
    · rw [if_pos hm] at h; exact absurd h (by simp)
    · rw [if_neg hm] at h
      intro j hj
      rcases Nat.lt_or_ge j m with h2 | h2
      · exact ih h j h2
      · have hjm : j = m := by omega
        rw [hjm]
        exact not_not.mp hm

theorem findPrevNonempty_some {bk : List (List (Nat × Nat))} {b j : Nat}
    (h : findPrevNonempty bk b = some j) : j < b ∧ bk.getD j [] ≠ [] := by
  induction b with
  | zero => simp [findPrevNonempty] at h
  | succ m ih =>
    rw [show findPrevNonempty bk (m + 1)
        = if bk.getD m [] ≠ [] then some m else findPrevNonempty bk m from rfl] at h
    by_cases hm : bk.getD m [] ≠ []
    · rw [if_pos hm] at h
      obtain rfl : j = m := by injection h with h2; omega
      exact ⟨by omega, hm⟩
    · rw [if_neg hm] at h
      obtain ⟨h1, h2⟩ := ih h
      exact ⟨by omega, h2⟩

theorem findFirstBit_eq_findNextBit {bits : List Bool} {b : Nat}
    (hlow : ∀ j, j ≤ b → bits.getD j false = false) :
    findFirstBit bits = findNextBit bits b := by
  rcases hfn : findNextBit bits b with _ | j
  · rcases hff : findFirstBit bits with _ | j0
    · rfl
    · obtain ⟨h1, _⟩ := findFirstBit_some hff
      rcases Nat.lt_or_ge b j0 with hbj | hbj
      · have := findNextBit_none hfn j0 hbj
        rw [this] at h1
        exact absurd h1 (by simp)
      · have := hlow j0 (by omega)
        rw [this] at h1
        exact absurd h1 (by simp)
  · obtain ⟨hbj, hjt, hmid⟩ := findNextBit_some hfn
    rcases hff : findFirstBit bits with _ | j0
    · have := findFirstBit_none hff j
      rw [this] at hjt
      exact absurd hjt (by simp)
    · obtain ⟨h1, h2⟩ := findFirstBit_some hff
      congr 1
      rcases Nat.lt_trichotomy j0 j with hlt | heq | hgt
      · rcases Nat.lt_or_ge b j0 with hgt2 | hle
        · have := hmid j0 hgt2 hlt
          rw [this] at h1
          exact absurd h1 (by simp)
        · have := hlow j0 hle
          rw [this] at h1
          exact absurd h1 (by simp)
      · exact heq
      · have := h2 j hgt
        rw [this] at hjt
        exact absurd hjt (by simp)

/-- Modelled from the spec: "an iterator to the next live entry" after the
entry at `(b, i)` has been removed — the same chain position `(b, i)` if an
entry slid into it, else position 0 of the next non-empty bucket after `b`
(computed from the bucket array itself), else `none` (no live entry
follows).  Used as the reference value for the amended C5. -/
def nextLive (t : Table) (b i : Nat) : Option (Nat × Nat) :=
  if i < (chainAt t b).length then some (b, i)
  else (findNextBit (t.buckets.map (fun c => decide (c ≠ []))) b).map (fun c => (c, 0))

/-- C5 counterexample: in `tTwo` (entries `(0,0)` in bucket 0 and `(1,1)` in
bucket 1), erasing the last entry `(1,1)` — via the iterator at `(1, 0)` —
returns the iterator `(0, 0)`, positioned at the live entry `(0, 0)`, which
*precedes* the erased position; the claim requires `end()` here since no
entry follows, and in particular the returned iterator must never precede
the erased position. -/
theorem erase_returns_preceding_entry_counterexample :
    insertF idHash 12 tOne (1, 1) = some (tTwo, (1, 0), true)
    ∧ entryAt tTwo (1, 0) = some (1, 1)
    ∧ (eraseIt tTwo (1, 0)).2 = (0, 0)
    ∧ entryAt (eraseIt tTwo (1, 0)).1 (0, 0) = some (0, 0)
    ∧ (0, 0) ≠ endPos (eraseIt tTwo (1, 0)).1
    ∧ (eraseIt tTwo (1, 0)).1.buckets.length = 8
    ∧ (∀ c, c < 8 → 1 ≤ c → chainAt (eraseIt tTwo (1, 0)).1 c = []) := by decide

/-- C5 (amended): erasing a live position `(b, i)` removes exactly that
entry (its chain loses index `i`, all other chains are untouched, the size
drops by one), and the returned iterator is the next live entry in
iteration order — or `end()` when none remains — EXCEPT in two cases the
source handles differently: (a) when the erased entry emptied the tracked
last-occupied bucket and that bucket was not the first-occupied one, the
returned iterator is position 0 of the *new* last-occupied bucket, which
precedes the erased position; (b) when the erased entry was last in
iteration order but its chain stayed non-empty, the returned iterator is
the out-of-range position `(b, chain length)` rather than `end()`. -/
theorem erase_iterator_amended (hash : Nat → Nat) (t : Table) (b i : Nat)
    (hwf : WFcore hash t) (hbd : WFbounds t)
    (hb : b < t.buckets.length) (hi : i < (chainAt t b).length) :
    chainAt (eraseIt t (b, i)).1 b = (chainAt t b).eraseIdx i
    ∧ (∀ c, c ≠ b → chainAt (eraseIt t (b, i)).1 c = chainAt t c)
    ∧ (eraseIt t (b, i)).1.size + 1 = t.size
    ∧ ((chainAt t b).eraseIdx i = [] ∧ t.first ≠ b ∧ t.last = b →
        ∃ j, (eraseIt t (b, i)).2 = (j, 0) ∧ j < b
          ∧ chainAt (eraseIt t (b, i)).1 j ≠ [])
    ∧ ((chainAt t b).eraseIdx i ≠ [] ∧ nextLive (eraseIt t (b, i)).1 b i = none →
        (eraseIt t (b, i)).2 = (b, ((chainAt t b).eraseIdx i).length))
    ∧ (¬((chainAt t b).eraseIdx i = [] ∧ t.first ≠ b ∧ t.last = b) →
        ¬((chainAt t b).eraseIdx i ≠ [] ∧ nextLive (eraseIt t (b, i)).1 b i = none) →
        (eraseIt t (b, i)).2 = (nextLive (eraseIt t (b, i)).1 b i).getD (endPos t)) := by
  have hchne : chainAt t b ≠ [] := by
    intro h0
    rw [h0] at hi
    exact absurd hi (by simp)
  have hsz : 0 < t.size := by
    have h1 := (chainAt_sublist t b).length_le
    have h2 := hwf.2.2.2.2.2
    omega
  have hfl := hbd.1 b hb hchne
  have hbitslen : t.bits.length = t.buckets.length := by
    rw [hwf.2.2.1, List.length_map]
  have hbitc : ∀ c, c < t.buckets.length →
      t.bits.getD c false = decide (chainAt t c ≠ []) := by
    intro c hc
    rw [hwf.2.2.1, getD_map_of_lt _ _ c false [] hc]
    rfl
  have hlastlt : t.last < t.buckets.length := by
    have hlne := (hbd.2 hsz).2
    by_contra hcon
    have : chainAt t t.last = [] := by
      unfold chainAt
      rw [List.getD_eq_default]
      omega
    exact hlne this
  have hg1 : ¬ (t.buckets.length ≤ b) := by omega
  have hg2 : ¬ ((chainAt t b).length ≤ i) := by omega
  have hc3 : t.size - 1 + 1 = t.size := by omega
  have hderiv : (t.buckets.set b ((chainAt t b).eraseIdx i)).map (fun c => decide (c ≠ []))
      = t.bits.set b (decide ((chainAt t b).eraseIdx i ≠ [])) := by
    rw [List.map_set, ← hwf.2.2.1]
  by_cases hch' : (chainAt t b).eraseIdx i = []
  · -- the chain became empty
    have hderiv0 : (t.buckets.set b ((chainAt t b).eraseIdx i)).map (fun c => decide (c ≠ []))
        = t.bits.set b false := by
      rw [hderiv, hch']
      rfl
    by_cases hfirst : t.first = b
    · -- first-occupied bucket: find_first rescan
      have hlow : ∀ j, j ≤ b → (t.bits.set b false).getD j false = false := by
        intro j hj
        rcases Nat.lt_or_ge j b with hlt | hge
        · rw [getD_set_ne _ _ _ _ _ (by omega)]
          rw [hbitc j (by omega)]
          by_cases hcj : chainAt t j = []
          · simp [hcj]
          · exfalso
            have := (hbd.1 j (by omega) hcj).1
            omega
        · have hjb : j = b := by omega
          rw [hjb, getD_set_self _ _ _ _ (by omega)]
      rcases hfb : findFirstBit (t.bits.set b false) with _ | nf
      · -- no occupied bucket remains: end
        have heq : eraseIt t (b, i)
            = (⟨t.size - 1, t.bc, t.first, t.last,
                t.buckets.set b ((chainAt t b).eraseIdx i), t.bits.set b false⟩,
               endPos (⟨t.size - 1, t.bc, t.first, t.last,
                t.buckets.set b ((chainAt t b).eraseIdx i), t.bits.set b false⟩ : Table)) := by
          simp only [eraseIt]
          rw [if_neg hg1, if_neg hg2, if_pos hch', if_pos hfirst]
          simp only [hfb]
        rw [heq]
        refine ⟨getD_set_self _ _ _ _ hb,
          fun c hc => getD_set_ne _ _ _ _ _ (fun h => hc h.symm), hc3, ?_, ?_, ?_⟩
        · intro ⟨_, hf, _⟩
          exact absurd hfirst hf
        · intro ⟨hne, _⟩
          exact absurd hch' hne
        · intro _ _
          have hnl : nextLive (⟨t.size - 1, t.bc, t.first, t.last,
              t.buckets.set b ((chainAt t b).eraseIdx i), t.bits.set b false⟩ : Table) b i
              = none := by
            unfold nextLive
            rw [show chainAt (⟨t.size - 1, t.bc, t.first, t.last,
              t.buckets.set b ((chainAt t b).eraseIdx i), t.bits.set b false⟩ : Table) b
              = (chainAt t b).eraseIdx i from getD_set_self _ _ _ _ hb]
            rw [if_neg (by rw [hch']; simp)]
            rw [show (⟨t.size - 1, t.bc, t.first, t.last,
              t.buckets.set b ((chainAt t b).eraseIdx i), t.bits.set b false⟩ : Table).buckets
              = t.buckets.set b ((chainAt t b).eraseIdx i) from rfl]
            rw [hderiv0, ← findFirstBit_eq_findNextBit hlow, hfb]
            rfl
          rw [hnl]
          show endPos _ = endPos t
          unfold endPos
          rw [show (⟨t.size - 1, t.bc, t.first, t.last,
            t.buckets.set b ((chainAt t b).eraseIdx i), t.bits.set b false⟩ : Table).buckets
            = t.buckets.set b ((chainAt t b).eraseIdx i) from rfl]
          rw [List.length_set]
      · -- jump to the new first occupied bucket
        have heq : eraseIt t (b, i)
            = (⟨t.size - 1, t.bc, nf, t.last,
                t.buckets.set b ((chainAt t b).eraseIdx i), t.bits.set b false⟩,
               (nf, 0)) := by
          simp only [eraseIt]
          rw [if_neg hg1, if_neg hg2, if_pos hch', if_pos hfirst]
          simp only [hfb]
        rw [heq]
        refine ⟨getD_set_self _ _ _ _ hb,
          fun c hc => getD_set_ne _ _ _ _ _ (fun h => hc h.symm), hc3, ?_, ?_, ?_⟩
        · intro ⟨_, hf, _⟩
          exact absurd hfirst hf
        · intro ⟨hne, _⟩
          exact absurd hch' hne
        · intro _ _
          have hnl : nextLive (⟨t.size - 1, t.bc, nf, t.last,
              t.buckets.set b ((chainAt t b).eraseIdx i), t.bits.set b false⟩ : Table) b i
              = some (nf, 0) := by
            unfold nextLive
            rw [show chainAt (⟨t.size - 1, t.bc, nf, t.last,
              t.buckets.set b ((chainAt t b).eraseIdx i), t.bits.set b false⟩ : Table) b
              = (chainAt t b).eraseIdx i from getD_set_self _ _ _ _ hb]
            rw [if_neg (by rw [hch']; simp)]
            rw [show (⟨t.size - 1, t.bc, nf, t.last,
              t.buckets.set b ((chainAt t b).eraseIdx i), t.bits.set b false⟩ : Table).buckets
              = t.buckets.set b ((chainAt t b).eraseIdx i) from rfl]
            rw [hderiv0, ← findFirstBit_eq_findNextBit hlow, hfb]
            rfl
          rw [hnl]
          rfl
    · -- not the first-occupied bucket
      have hlast0 : t.last ≠ 0 := by
        intro h0
        have h1 := hfl.2
        have h2 := hfl.1
        omega
      by_cases hlast : t.last = b
      · -- emptied the tracked last-occupied bucket: backward rescan
        have hfirstlt : t.first < b := by
          have := hfl.1
          omega
        have hfne : chainAt t t.first ≠ [] := (hbd.2 hsz).1
        rcases hfp : findPrevNonempty
            (t.buckets.set b ((chainAt t b).eraseIdx i)) b with _ | j
        · exfalso
          have := findPrevNonempty_none hfp t.first hfirstlt
          rw [getD_set_ne _ _ _ _ _ (by omega)] at this
          exact hfne this
        · obtain ⟨hjb, hjne⟩ := findPrevNonempty_some hfp
          have heq : eraseIt t (b, i)
              = (⟨t.size - 1, t.bc, t.first, j,
                  t.buckets.set b ((chainAt t b).eraseIdx i), t.bits.set b false⟩,
                 (j, 0)) := by
            simp only [eraseIt]
            rw [if_neg hg1, if_neg hg2, if_pos hch', if_neg hfirst, if_neg hlast0,
              if_pos hlast]
            simp only [hfp]
          rw [heq]
          refine ⟨getD_set_self _ _ _ _ hb,
            fun c hc => getD_set_ne _ _ _ _ _ (fun h => hc h.symm), hc3, ?_, ?_, ?_⟩
          · intro _
            exact ⟨j, rfl, hjb, hjne⟩
          · intro ⟨hne, _⟩
            exact absurd hch' hne
          · intro hnotA _
            exact absurd ⟨hch', hfirst, hlast⟩ hnotA
      · -- neither boundary: plain advance
        have hblast : b < t.last := by
          have := hfl.2
          omega
        have hlne : chainAt t t.last ≠ [] := (hbd.2 hsz).2
        have hbitlast : (t.bits.set b false).getD t.last false = true := by
          rw [getD_set_ne _ _ _ _ _ (by omega), hbitc t.last hlastlt]
          simp [hlne]
        rcases hfn : findNextBit (t.bits.set b false) b with _ | nb
        · exfalso
          have := findNextBit_none hfn t.last hblast
          rw [hbitlast] at this
          exact absurd this (by simp)
        · have heq : eraseIt t (b, i)
              = (⟨t.size - 1, t.bc, t.first, t.last,
                  t.buckets.set b ((chainAt t b).eraseIdx i), t.bits.set b false⟩,
                 (nb, 0)) := by
            simp only [eraseIt]
            rw [if_neg hg1, if_neg hg2, if_pos hch', if_neg hfirst, if_neg hlast0,
              if_neg hlast]
            unfold advancePos
            rw [show chainAt (⟨t.size - 1, t.bc, t.first, t.last,
              t.buckets.set b ((chainAt t b).eraseIdx i), t.bits.set b false⟩ : Table) b
              = (chainAt t b).eraseIdx i from getD_set_self _ _ _ _ hb]
            rw [if_neg (by rw [hch']; simp)]
            simp only [hfn]
          rw [heq]
          refine ⟨getD_set_self _ _ _ _ hb,
            fun c hc => getD_set_ne _ _ _ _ _ (fun h => hc h.symm), hc3, ?_, ?_, ?_⟩
          · intro ⟨_, _, hl⟩
            exact absurd hl hlast
          · intro ⟨hne, _⟩
            exact absurd hch' hne
          · intro _ _
            have hnl : nextLive (⟨t.size - 1, t.bc, t.first, t.last,
                t.buckets.set b ((chainAt t b).eraseIdx i), t.bits.set b false⟩ : Table) b i
                = some (nb, 0) := by
              unfold nextLive
              rw [show chainAt (⟨t.size - 1, t.bc, t.first, t.last,
                t.buckets.set b ((chainAt t b).eraseIdx i), t.bits.set b false⟩ : Table) b
                = (chainAt t b).eraseIdx i from getD_set_self _ _ _ _ hb]
              rw [if_neg (by rw [hch']; simp)]
              rw [show (⟨t.size - 1, t.bc, t.first, t.last,
                t.buckets.set b ((chainAt t b).eraseIdx i), t.bits.set b false⟩ : Table).buckets
                = t.buckets.set b ((chainAt t b).eraseIdx i) from rfl]
              rw [hderiv0, hfn]
              rfl
            rw [hnl]
            rfl
  · -- the chain is still non-empty
    have hilen : i ≤ ((chainAt t b).eraseIdx i).length := by
      have := List.length_eraseIdx_of_lt hi
      omega
    have hbitb : t.bits.getD b false = true := by
      rw [hbitc b hb]
      simp [hchne]
    have hderiv1 : (t.buckets.set b ((chainAt t b).eraseIdx i)).map (fun c => decide (c ≠ []))
        = t.bits := by
      rw [hderiv]
      rw [show decide ((chainAt t b).eraseIdx i ≠ []) = true from by simp [hch']]
      rw [← hbitb]
      exact set_getD_self _ _ _ (by omega)
    by_cases hieq : i = ((chainAt t b).eraseIdx i).length
    · -- erased the tail of the chain: std::next falls through find_next
      rcases hfn : findNextBit t.bits b with _ | nb
      · -- nothing after: the source sticks at (b, chain length)
        have heq : eraseIt t (b, i)
            = (⟨t.size - 1, t.bc, t.first, t.last,
                t.buckets.set b ((chainAt t b).eraseIdx i), t.bits⟩,
               (b, i)) := by
          simp only [eraseIt]
          rw [if_neg hg1, if_neg hg2, if_neg hch', if_pos hieq]
          unfold advancePos
          rw [show chainAt (⟨t.size - 1, t.bc, t.first, t.last,
            t.buckets.set b ((chainAt t b).eraseIdx i), t.bits⟩ : Table) b
            = (chainAt t b).eraseIdx i from getD_set_self _ _ _ _ hb]
          rw [if_neg (by omega)]
          simp only [hfn]
          rw [if_neg (by omega)]
        rw [heq]
        refine ⟨getD_set_self _ _ _ _ hb,
          fun c hc => getD_set_ne _ _ _ _ _ (fun h => hc h.symm), hc3, ?_, ?_, ?_⟩
        · intro ⟨he, _, _⟩
          exact absurd he hch'
        · intro _
          rw [show ((b, i) : Nat × Nat) = (b, ((chainAt t b).eraseIdx i).length)
            from by rw [← hieq]]
        · intro _ hnotB
          exfalso
          apply hnotB
          refine ⟨hch', ?_⟩
          unfold nextLive
          rw [show chainAt (⟨t.size - 1, t.bc, t.first, t.last,
            t.buckets.set b ((chainAt t b).eraseIdx i), t.bits⟩ : Table) b
            = (chainAt t b).eraseIdx i from getD_set_self _ _ _ _ hb]
          rw [if_neg (by omega)]
          rw [show (⟨t.size - 1, t.bc, t.first, t.last,
            t.buckets.set b ((chainAt t b).eraseIdx i), t.bits⟩ : Table).buckets
            = t.buckets.set b ((chainAt t b).eraseIdx i) from rfl]
          rw [hderiv1, hfn]
          rfl
      · -- jump to the next occupied bucket
        have heq : eraseIt t (b, i)
            = (⟨t.size - 1, t.bc, t.first, t.last,
                t.buckets.set b ((chainAt t b).eraseIdx i), t.bits⟩,
               (nb, 0)) := by
          simp only [eraseIt]
          rw [if_neg hg1, if_neg hg2, if_neg hch', if_pos hieq]
          unfold advancePos
          rw [show chainAt (⟨t.size - 1, t.bc, t.first, t.last,
            t.buckets.set b ((chainAt t b).eraseIdx i), t.bits⟩ : Table) b
            = (chainAt t b).eraseIdx i from getD_set_self _ _ _ _ hb]
          rw [if_neg (by omega)]
          simp only [hfn]
        rw [heq]
        refine ⟨getD_set_self _ _ _ _ hb,
          fun c hc => getD_set_ne _ _ _ _ _ (fun h => hc h.symm), hc3, ?_, ?_, ?_⟩
        · intro ⟨he, _, _⟩
          exact absurd he hch'
        · intro ⟨_, hnl⟩
          exfalso
          rw [show nextLive (⟨t.size - 1, t.bc, t.first, t.last,
            t.buckets.set b ((chainAt t b).eraseIdx i), t.bits⟩ : Table) b i
            = some (nb, 0) from ?_] at hnl
          · exact absurd hnl (by simp)
          · unfold nextLive
            rw [show chainAt (⟨t.size - 1, t.bc, t.first, t.last,
              t.buckets.set b ((chainAt t b).eraseIdx i), t.bits⟩ : Table) b
              = (chainAt t b).eraseIdx i from getD_set_self _ _ _ _ hb]
            rw [if_neg (by omega)]
            rw [show (⟨t.size - 1, t.bc, t.first, t.last,
              t.buckets.set b ((chainAt t b).eraseIdx i), t.bits⟩ : Table).buckets
              = t.buckets.set b ((chainAt t b).eraseIdx i) from rfl]
            rw [hderiv1, hfn]
            rfl
        · intro _ _
          have hnl : nextLive (⟨t.size - 1, t.bc, t.first, t.last,
              t.buckets.set b ((chainAt t b).eraseIdx i), t.bits⟩ : Table) b i
              = some (nb, 0) := by
            unfold nextLive
            rw [show chainAt (⟨t.size - 1, t.bc, t.first, t.last,
              t.buckets.set b ((chainAt t b).eraseIdx i), t.bits⟩ : Table) b
              = (chainAt t b).eraseIdx i from getD_set_self _ _ _ _ hb]
            rw [if_neg (by omega)]
            rw [show (⟨t.size - 1, t.bc, t.first, t.last,
              t.buckets.set b ((chainAt t b).eraseIdx i), t.bits⟩ : Table).buckets
              = t.buckets.set b ((chainAt t b).eraseIdx i) from rfl]
            rw [hderiv1, hfn]
            rfl
          rw [hnl]
          rfl
    · -- an entry slid into the erased slot
      have hilt : i < ((chainAt t b).eraseIdx i).length := by omega
      have heq : eraseIt t (b, i)
          = (⟨t.size - 1, t.bc, t.first, t.last,
              t.buckets.set b ((chainAt t b).eraseIdx i), t.bits⟩,
             (b, i)) := by
        simp only [eraseIt]
        rw [if_neg hg1, if_neg hg2, if_neg hch', if_neg hieq]
      rw [heq]
      refine ⟨getD_set_self _ _ _ _ hb,
        fun c hc => getD_set_ne _ _ _ _ _ (fun h => hc h.symm), hc3, ?_, ?_, ?_⟩
      · intro ⟨he, _, _⟩
        exact absurd he hch'
      · intro ⟨_, hnl⟩
        exfalso
        rw [show nextLive (⟨t.size - 1, t.bc, t.first, t.last,
          t.buckets.set b ((chainAt t b).eraseIdx i), t.bits⟩ : Table) b i
          = some (b, i) from ?_] at hnl
        · exact absurd hnl (by simp)
        · unfold nextLive
          rw [show chainAt (⟨t.size - 1, t.bc, t.first, t.last,
            t.buckets.set b ((chainAt t b).eraseIdx i), t.bits⟩ : Table) b
            = (chainAt t b).eraseIdx i from getD_set_self _ _ _ _ hb]
          rw [if_pos hilt]
      · intro _ _
        have hnl : nextLive (⟨t.size - 1, t.bc, t.first, t.last,
            t.buckets.set b ((chainAt t b).eraseIdx i), t.bits⟩ : Table) b i
            = some (b, i) := by
          unfold nextLive
          rw [show chainAt (⟨t.size - 1, t.bc, t.first, t.last,
            t.buckets.set b ((chainAt t b).eraseIdx i), t.bits⟩ : Table) b
            = (chainAt t b).eraseIdx i from getD_set_self _ _ _ _ hb]
          rw [if_pos hilt]
        rw [hnl]
        rfl

/-- Witness for C5 (amended): erase the entry `(0, 0)` of `tTwo` through
the iterator at `(0, 0)`; bucket 0 empties and was the first-occupied
bucket, so the result is the next live entry `(1, 0)`. -/
theorem erase_iterator_amended_witness :
    chainAt (eraseIt tTwo (0, 0)).1 0 = (chainAt tTwo 0).eraseIdx 0
    ∧ (∀ c, c ≠ 0 → chainAt (eraseIt tTwo (0, 0)).1 c = chainAt tTwo c)
    ∧ (eraseIt tTwo (0, 0)).1.size + 1 = tTwo.size
    ∧ ((chainAt tTwo 0).eraseIdx 0 = [] ∧ tTwo.first ≠ 0 ∧ tTwo.last = 0 →
        ∃ j, (eraseIt tTwo (0, 0)).2 = (j, 0) ∧ j < 0
          ∧ chainAt (eraseIt tTwo (0, 0)).1 j ≠ [])
    ∧ ((chainAt tTwo 0).eraseIdx 0 ≠ [] ∧ nextLive (eraseIt tTwo (0, 0)).1 0 0 = none →
        (eraseIt tTwo (0, 0)).2 = (0, ((chainAt tTwo 0).eraseIdx 0).length))
    ∧ (¬((chainAt tTwo 0).eraseIdx 0 = [] ∧ tTwo.first ≠ 0 ∧ tTwo.last = 0) →
        ¬((chainAt tTwo 0).eraseIdx 0 ≠ [] ∧ nextLive (eraseIt tTwo (0, 0)).1 0 0 = none) →
        (eraseIt tTwo (0, 0)).2 = (nextLive (eraseIt tTwo (0, 0)).1 0 0).getD (endPos tTwo)) :=
  erase_iterator_amended idHash tTwo 0 0 (by decide) (by decide) (by decide) (by decide)
